import Mathlib

/-!
Verification of the job-array subjob tracking core of the OpenPBS server
(src/server/array_func.c): the range codec (parse_subjob_index, cvt_range),
the index/offset mapper (numindex_to_offset, SJ_TBLIDX_2_IDX), the tracking
table (mk_subjob_index_tbl, set_subjob_tblstate), doneness detection
(chk_array_doneness), subjob materialization (create_subjob) and the qmove
index fix-up (fixup_arrayindicies).

Modelling conventions:
- C strings become List Char; a char pointer into a string becomes the
  suffix starting at that position.
- C int becomes Int (the values involved are far below 2^31 in every claim;
  no overflow is exercised).  Int division / and modulo % in Lean are
  euclidean; every division and modulo the C code performs here has a
  non-negative dividend and positive divisor (guarded by the code itself),
  where euclidean and C truncating division coincide.
- out-parameters become returned tuples; NULL-able results become Option.
-/

set_option maxHeartbeats 1000000

/-- C isspace over the character set that can occur in range text. -/
def cIsSpace (c : Char) : Bool :=
  c = ' ' || c = '\t' || c = '\n' || c = '\x0b' || c = '\x0c' || c = '\r'

/-- C isdigit. -/
def cIsDigit (c : Char) : Bool :=
  48 ≤ c.toNat && c.toNat ≤ 57

/-- One decimal digit character, as produced by sprintf %d. -/
def digCh : Nat → Char
  | 0 => '0' | 1 => '1' | 2 => '2' | 3 => '3' | 4 => '4'
  | 5 => '5' | 6 => '6' | 7 => '7' | 8 => '8' | _ => '9'

/-- Decimal digits of n, most significant first; fuel-structured so that the
kernel can evaluate it (fuel n suffices since n / 10 loses a digit). -/
def natDigitsGo : Nat → Nat → List Char
  | 0, _ => []
  | fuel + 1, n => if n = 0 then [] else natDigitsGo fuel (n / 10) ++ [digCh (n % 10)]

/-- Decimal text of a natural number, as produced by sprintf %d. -/
def natDigits (n : Nat) : List Char :=
  if n = 0 then ['0'] else natDigitsGo (n + 1) n

/-- Decimal text of an int, as produced by sprintf %d. -/
def intChars (i : Int) : List Char :=
  if i < 0 then '-' :: natDigits i.natAbs else natDigits i.toNat

/-- Value of a digit string, the accumulation strtol performs. -/
def digitsVal (ds : List Char) : Nat :=
  ds.foldl (fun a c => 10 * a + (c.toNat - 48)) 0

/-- Drop the leading spaces and commas, as the head of parse_subjob_index does. -/
def skipSpaceComma (s : List Char) : List Char :=
  s.dropWhile (fun c => cIsSpace c || c = ',')

/-- Drop leading spaces. -/
def skipSpace (s : List Char) : List Char :=
  s.dropWhile cIsSpace

/-- The single-space skip after the end value (line 1194: if isspace pc++). -/
def skipOneSpace (s : List Char) : List Char :=
  match s with
  | [] => s
  | e :: r => if cIsSpace e then r else s

/-- The single-comma skip after the step value (line 1209: if comma pc++). -/
def skipOneComma (s : List Char) : List Char :=
  match s with
  | [] => s
  | f :: r => if f = ',' then r else s

/-- C strtol base 10: skip spaces, optional sign, then digits.  Returns the
value and the end pointer; when no digit is consumed it returns 0 with the
end pointer equal to the original pointer, exactly as strtol does. -/
def strtol (nptr : List Char) : Int × List Char :=
  let s1 := skipSpace nptr
  let sgn : Int × List Char :=
    match s1 with
    | [] => (1, s1)
    | c :: r => if c = '-' then (-1, r) else if c = '+' then (1, r) else (1, s1)
  let ds := sgn.2.takeWhile cIsDigit
  let rest := sgn.2.dropWhile cIsDigit
  if ds = [] then (0, nptr) else (sgn.1 * (digitsVal ds : Int), rest)

/-- Result of one parse_subjob_index call: retval 0 with the out-parameters
and end pointer, retval 1 (no more indices), or retval -1 (format error). -/
inductive ParseRes where
  | ok (ep : List Char) (start endv step count : Int)
  | done (ep : List Char)
  | err
deriving DecidableEq, Repr

/-- The count the parser computes on success: (end - start + step) / step
(array_func.c line 1220; dividend positive, divisor positive). -/
def rangeCount (start endv step : Int) : Int :=
  (endv - start + step) / step

/-- The step/end-pointer part of the X-Y[:Z] branch of parse_subjob_index
(array_func.c lines 1196-1211): step defaults to 1 before a comma, end of
string or bracket (comma left unconsumed); otherwise a colon must follow and
the step is read, spaces skipped and one trailing comma consumed.  none is
the -1 format-error return. -/
def parseStepPart (pc3 : List Char) : Option (Int × List Char) :=
  match pc3 with
  | [] => some (1, [])
  | e :: r =>
    if e = ',' then some (1, pc3)
    else if e = ']' then some (1, pc3)
    else if e ≠ ':' then none
    else
      let r3 := strtol (skipSpace r)
      some (r3.1, skipOneComma (skipSpace r3.2))

/-- The X-Y[:Z] branch after the dash: validity requires start < end and
step ≥ 1 (array_func.c line 1214). -/
def parseDash (pc3 : List Char) (start endv : Int) : ParseRes :=
  match parseStepPart pc3 with
  | none => ParseRes.err
  | some (step, ep) =>
    if start ≥ endv ∨ step < 1 then ParseRes.err
    else ParseRes.ok ep start endv step (rangeCount start endv step)

/-- The part of parse_subjob_index after start has been read and trailing
spaces skipped (array_func.c lines 1179-1215): pc1 is the remaining text.
The X, / X / X] forms make a single-value segment (the comma consumed, the
bracket not); otherwise a dash must follow and the end value is read. -/
def parseAfterStart (start : Int) (pc1 : List Char) : ParseRes :=
  match pc1 with
  | [] => ParseRes.ok [] start start 1 (rangeCount start start 1)
  | d :: rest1 =>
    if d = ',' then ParseRes.ok rest1 start start 1 (rangeCount start start 1)
    else if d = ']' then ParseRes.ok pc1 start start 1 (rangeCount start start 1)
    else if d ≠ '-' then ParseRes.err
    else
      let r2 := strtol rest1
      parseDash (skipOneSpace r2.2) start r2.1

/-- parse_subjob_index (array_func.c lines 1155-1225): parse one
comma-delimited segment START[-END[:STEP]] of a subjob index range. -/
def parse_subjob_index (pc0 : List Char) : ParseRes :=
  let pc := skipSpaceComma pc0
  match pc with
  | [] => ParseRes.done []
  | c :: _ =>
    if c = ']' then ParseRes.done pc
    else if ¬ cIsDigit c then ParseRes.err
    else
      let r1 := strtol pc
      parseAfterStart r1.1 (skipSpace r1.2)

/-- The index list a segment denotes: start, start+step, ... up to endv,
the iteration order of the C loops for (i = start; i <= end; i += step). -/
def segIndicesGo (start step : Int) : Nat → List Int
  | 0 => []
  | n + 1 => start :: segIndicesGo (start + step) step n

/-- Indices generated by one (start, endv, step) segment. -/
def segIndices (start endv step : Int) : List Int :=
  if 0 < step ∧ start ≤ endv then segIndicesGo start step ((endv - start) / step + 1).toNat
  else []


/-! ## Tracking table data model -/

/-- Job states (numeric values from the server headers; the order is
confirmed by the statename table in update_subjob_state_ct,
array_func.c lines 562-564). -/
def JOB_STATE_TRANSIT : Nat := 0
def JOB_STATE_QUEUED : Nat := 1
def JOB_STATE_HELD : Nat := 2
def JOB_STATE_WAITING : Nat := 3
def JOB_STATE_RUNNING : Nat := 4
def JOB_STATE_EXITING : Nat := 5
def JOB_STATE_EXPIRED : Nat := 6
def JOB_STATE_BEGUN : Nat := 7
def JOB_STATE_MOVED : Nat := 8
def JOB_STATE_FINISHED : Nat := 9

/-- Number of job states: size of the tkm_subjsct histogram. -/
def PBS_NUMJOBSTATE : Nat := 10

/-- Default subjob-count limit PBS_MAX_ARRAY_JOB_DFL (array_func.c line 654). -/
def PBS_MAX_ARRAY_JOB_DFL : Int := 10000

/-- One struct ajtrk entry of the tracking table.  trk_psubjob is the
back-reference to the materialized subjob, abstracted to linked/unlinked. -/
structure Ajtrk where
  trk_status : Nat
  trk_error : Int
  trk_discarding : Bool
  trk_substate : Nat
  trk_stgout : Int
  trk_exitstat : Bool
  trk_psubjob : Option Unit
deriving DecidableEq, Repr

instance : Inhabited Ajtrk := ⟨⟨0, 0, false, 0, 0, false, none⟩⟩

/-- The tkm_flags bitmask, modelled as a record of the three flag bits the
core reads and writes (TKMFLG_NO_DELETE, TKMFLG_CHK_ARRAY,
TKMFLG_REVAL_IND_REMAINING; the numeric bit values live in a header outside
src/ and never matter, only membership in the mask does). -/
structure TkmFlags where
  no_delete : Bool
  chk_array : Bool
  reval_ind_remaining : Bool
deriving DecidableEq, Repr

/-- struct ajtrkhd: the per-array tracking table. -/
structure Ajtrkhd where
  tkm_ct : Nat
  tkm_start : Int
  tkm_end : Int
  tkm_step : Int
  tkm_flags : TkmFlags
  tkm_subjsct : List Int
  tkm_tbl : List Ajtrk
deriving DecidableEq, Repr

/-- Histogram counter for state s (tkm_subjsct[s]). -/
def histGet (ptbl : Ajtrkhd) (s : Nat) : Int :=
  ptbl.tkm_subjsct.getD s 0

/-- tkm_subjsct[s] += d, as the direct counter increments/decrements do. -/
def histAdd (h : List Int) (s : Nat) (d : Int) : List Int :=
  h.set s (h.getD s 0 + d)

/-- State field of the entry at a table offset (tkm_tbl[o].trk_status). -/
def entStatus (ptbl : Ajtrkhd) (o : Nat) : Nat :=
  (ptbl.tkm_tbl.getD o default).trk_status

/-- The SJ_TBLIDX_2_IDX macro.  Modelled from the spec: the macro lives in a
server header outside src/; per the spec (ToExternalIndex, section 4.2) the
external index of table offset i is start + i * step, the inverse of the
offset formula in numindex_to_offset. -/
def SJ_TBLIDX_2_IDX (ptbl : Ajtrkhd) (i : Int) : Int :=
  ptbl.tkm_start + i * ptbl.tkm_step

/-- set_subjob_tblstate (array_func.c lines 342-370): set the state field of
the offset entry, keeping the per-state histogram consistent and marking the
remaining-indices attribute stale.  The C code touches nothing when offset
is -1 (and reading a slot beyond the allocated table is not a defined C
execution, modelled as leaving the table unchanged). -/
def set_subjob_tblstate (ptbl : Ajtrkhd) (offset : Int) (newstate : Nat) : Ajtrkhd :=
  if offset = -1 then ptbl
  else
    match ptbl.tkm_tbl.get? offset.toNat with
    | none => ptbl
    | some entry =>
      let oldstate := entry.trk_status
      if oldstate = newstate then ptbl
      else
        { ptbl with
          tkm_tbl := ptbl.tkm_tbl.set offset.toNat { entry with trk_status := newstate }
          tkm_subjsct := histAdd (histAdd ptbl.tkm_subjsct oldstate (-1)) newstate 1
          tkm_flags := { ptbl.tkm_flags with reval_ind_remaining := true } }

/-- numindex_to_offset (array_func.c lines 186-203): dense offset of an
external index, -1 when the index is out of range, off the step grid, or
fails the defensive reverse lookup. -/
def numindex_to_offset (ptbl : Ajtrkhd) (iindx : Int) : Int :=
  if (iindx - ptbl.tkm_start) % ptbl.tkm_step ≠ 0 ∨ ptbl.tkm_start > iindx ∨ iindx > ptbl.tkm_end then
    -1
  else
    let i := (iindx - ptbl.tkm_start) / ptbl.tkm_step
    if SJ_TBLIDX_2_IDX ptbl i ≠ iindx then -1 else i

/-- atoi, as subjob_index_to_offset applies it to the index text. -/
def atoi (s : List Char) : Int :=
  (strtol s).1

/-- subjob_index_to_offset (array_func.c lines 215-225) at table level:
-1 for an absent table or empty index text, else the numeric lookup. -/
def subjob_index_to_offset (ptbl : Option Ajtrkhd) (index : List Char) : Int :=
  match ptbl with
  | none => -1
  | some t => if index = [] then -1 else numindex_to_offset t (atoi index)

/-- The PBS error codes returned by the functions under study. -/
inductive PBSError where
  | PBSE_NONE
  | PBSE_BADATVAL
  | PBSE_MaxArraySize
  | PBSE_SYSTEM
  | PBSE_IVALREQ
  | PBSE_UNKJOBID
  | PBSE_BADSTATE
  | PBSE_MODATRRUN
deriving DecidableEq, Repr

/-- The actmode values relevant to the array-attribute action functions. -/
inductive AtrAction where
  | NEW
  | ALTER
  | RECOV
  | FREE
deriving DecidableEq, Repr

/-- A fresh tracking entry as initialized by the construction loop
(array_func.c lines 680-688). -/
def freshEntry (initalstate : Nat) : Ajtrk :=
  { trk_status := initalstate
    trk_error := 0
    trk_discarding := false
    trk_substate := 0
    trk_stgout := -1
    trk_exitstat := false
    trk_psubjob := none }

/-- mk_subjob_index_tbl (array_func.c lines 630-690): parse the range, check
the subjob-count limit only for ATR_ACTION_NEW and ATR_ACTION_ALTER, then
allocate the table: count entries all in the initial state, every histogram
counter zero except tkm_subjsct[JOB_STATE_QUEUED] which is set to count.
maxarraysize is the server attribute when set (none selects the default
limit).  The entry loop for (i = start; i <= end; i += step) is mirrored by
mapping over segIndices. -/
def mk_subjob_index_tbl (range : List Char) (initalstate : Nat) (mode : AtrAction)
    (maxarraysize : Option Int) : Except PBSError Ajtrkhd :=
  match parse_subjob_index range with
  | ParseRes.done _ => Except.error PBSError.PBSE_BADATVAL
  | ParseRes.err => Except.error PBSError.PBSE_BADATVAL
  | ParseRes.ok _ start endv step count =>
    if (mode = AtrAction.NEW ∨ mode = AtrAction.ALTER) ∧
        count > maxarraysize.getD PBS_MAX_ARRAY_JOB_DFL then
      Except.error PBSError.PBSE_MaxArraySize
    else
      Except.ok
        { tkm_ct := count.toNat
          tkm_start := start
          tkm_end := endv
          tkm_step := step
          tkm_flags := ⟨false, false, false⟩
          tkm_subjsct := (List.range PBS_NUMJOBSTATE).map
            (fun s => if s = JOB_STATE_QUEUED then count else 0)
          tkm_tbl := (segIndices start endv step).map (fun _ => freshEntry initalstate) }

/-! ## Range formatting (cvt_range) and re-parsing -/

/-- The inner while loop of cvt_range (array_func.c lines 1114-1120):
extend the run while the next entry is in the wanted state; returns the final
last.  Fueled: tkm_ct steps always suffice since next increases each step. -/
def runEnd (ptbl : Ajtrkhd) (state : Nat) : Nat → Nat → Nat → Nat
  | 0, last, _ => last
  | fuel + 1, last, next =>
    if next < ptbl.tkm_ct then
      if entStatus ptbl next = state then runEnd ptbl state fuel next (next + 1)
      else last
    else last

/-- The outer while loop of cvt_range (array_func.c lines 1088-1133), from
table offset first, pcomma telling whether a segment was already emitted.
Fueled: tkm_ct steps suffice since first advances by at least one. -/
def cvtGo (ptbl : Ajtrkhd) (state : Nat) : Nat → Nat → Bool → List Char
  | 0, _, _ => []
  | fuel + 1, first, pcomma =>
    if first < ptbl.tkm_ct then
      if entStatus ptbl first = state then
        let last := runEnd ptbl state ptbl.tkm_ct first (first + 1)
        (if pcomma then [','] else []) ++ intChars (SJ_TBLIDX_2_IDX ptbl first) ++
        (if first + 1 < last then
          ['-'] ++ intChars (SJ_TBLIDX_2_IDX ptbl last) ++
          (if 1 < ptbl.tkm_step then [':'] ++ intChars ptbl.tkm_step else [])
        else if first < last then [','] ++ intChars (SJ_TBLIDX_2_IDX ptbl last)
        else []) ++
        cvtGo ptbl state fuel (last + 1) true
      else cvtGo ptbl state fuel (first + 1) pcomma
    else []

/-- cvt_range (array_func.c lines 1067-1136): emit the external indices of
the entries in the given state as minimal range text. -/
def cvt_range (ptbl : Ajtrkhd) (state : Nat) : List Char :=
  cvtGo ptbl state ptbl.tkm_ct 0 false

/-- External indices of the table entries in the given state, scanning
offsets first, first+1, ... in order. -/
def matchFrom (ptbl : Ajtrkhd) (state : Nat) (first : Nat) : List Int :=
  ((List.range' first (ptbl.tkm_ct - first)).filter
    (fun o => entStatus ptbl o = state)).map (fun o : Nat => SJ_TBLIDX_2_IDX ptbl (o : Int))

/-- External indices of the table entries in the given state. -/
def matchIdx (ptbl : Ajtrkhd) (state : Nat) : List Int :=
  matchFrom ptbl state 0

/-- The expansion loop over a range text: repeated parse_subjob_index calls,
each returned segment expanded to its indices, stopping at end-of-input or
error (the reading discipline of fixup_arrayindicies, lines 794-800).
Fueled: each successful parse consumes at least one character, so
length + 1 calls always suffice. -/
def expandGo : Nat → List Char → List Int
  | 0, _ => []
  | fuel + 1, s =>
    match parse_subjob_index s with
    | ParseRes.ok ep start endv step _ => segIndices start endv step ++ expandGo fuel ep
    | ParseRes.done _ => []
    | ParseRes.err => []

/-- All indices denoted by a range text. -/
def expandText (s : List Char) : List Int :=
  expandGo (s.length + 1) s

/-! ## Parent array job, doneness, materializer, fix-up -/

/-- The parent array job, restricted to the fields the core reads or writes.
finalizeCount and saveCount are modelled from the spec: they count
invocations of the external completion collaborators (accounting finalize,
mail, dependency release, history save-or-purge; spec section 4.4 requires
them to run exactly once) and of the persistence quick-save. -/
structure ParentJob where
  ji_ajtrk : Option Ajtrkhd
  ji_exitstat : Int
  ji_un_type_exec : Bool
  ji_svrflags_ArrayJob : Bool
  array_indices_remaining : List Char
  finalizeCount : Nat
  saveCount : Nat
deriving DecidableEq, Repr

/-- update_array_indices_remaining_attr (array_func.c lines 379-395): when
the reval flag is up, re-derive the remaining-indices text from the queued
entries, substituting the sentinel "-" for an empty result, and drop the
flag. -/
def update_array_indices_remaining_attr (parent : ParentJob) : ParentJob :=
  match parent.ji_ajtrk with
  | none => parent
  | some ptbl =>
    if ptbl.tkm_flags.reval_ind_remaining then
      let pnewstr := cvt_range ptbl JOB_STATE_QUEUED
      let pnewstr := if pnewstr = [] then ['-'] else pnewstr
      { parent with
        array_indices_remaining := pnewstr
        ji_ajtrk := some { ptbl with
          tkm_flags := { ptbl.tkm_flags with reval_ind_remaining := false } } }
    else parent

/-- The aggregate-exit scan of chk_array_doneness (array_func.c lines
424-431): e becomes 1 on a positive recorded error, 2 with an immediate stop
on a negative one. -/
def scanErr (e : Int) : List Ajtrk → Int
  | [] => e
  | t :: rest =>
    if t.trk_error > 0 then scanErr 1 rest
    else if t.trk_error < 0 then 2
    else scanErr e rest

/-- chk_array_doneness (array_func.c lines 405-461).  When subjobs are still
active the remaining-indices attribute is refreshed and the parent saved;
when none are active the aggregate exit status is derived and stored, the
completion side effects run (abstracted into finalizeCount) and the
TKMFLG_CHK_ARRAY latch is set before handing the parent to the
history/purge collaborator.  Re-entry and delete-in-progress return
immediately. -/
def chk_array_doneness (parent : ParentJob) : ParentJob :=
  match parent.ji_ajtrk with
  | none => parent
  | some ptbl =>
    if ptbl.tkm_flags.no_delete ∨ ptbl.tkm_flags.chk_array then parent
    else if histGet ptbl JOB_STATE_QUEUED + histGet ptbl JOB_STATE_RUNNING +
        histGet ptbl JOB_STATE_HELD + histGet ptbl JOB_STATE_EXITING = 0 then
      { parent with
        ji_un_type_exec := true
        ji_exitstat := scanErr 0 ptbl.tkm_tbl
        finalizeCount := parent.finalizeCount + 1
        ji_ajtrk := some { ptbl with
          tkm_flags := { ptbl.tkm_flags with chk_array := true } } }
    else
      let parent := update_array_indices_remaining_attr parent
      { parent with saveCount := parent.saveCount + 1 }

/-- create_subjob (array_func.c lines 814-953), restricted to its effect on
the parent and the tracking table.  newjid is represented by the index text
get_index_from_jid extracts from it (none when that extraction fails).
enqueue_ok is the verdict of the external svr_enquejob collaborator; on
enqueue failure the C code purges the new subjob, and job_purge (outside
src/) unlinks the slot back-reference -- modelled from the spec: the table
entry must remain Queued and unlinked on failure.  Returns the updated
parent and the rc out-parameter. -/
def create_subjob (parent : ParentJob) (index : Option (List Char)) (enqueue_ok : Bool) :
    ParentJob × Except PBSError Unit :=
  if ¬ parent.ji_svrflags_ArrayJob then (parent, Except.error PBSError.PBSE_IVALREQ)
  else
    match index with
    | none => (parent, Except.error PBSError.PBSE_IVALREQ)
    | some idxText =>
      let indx := subjob_index_to_offset parent.ji_ajtrk idxText
      if indx = -1 then (parent, Except.error PBSError.PBSE_UNKJOBID)
      else
        match parent.ji_ajtrk with
        | none => (parent, Except.error PBSError.PBSE_UNKJOBID)
        | some ptbl =>
          if entStatus ptbl indx.toNat ≠ JOB_STATE_QUEUED then
            (parent, Except.error PBSError.PBSE_BADSTATE)
          else
            let linked := { ptbl with
              tkm_tbl := ptbl.tkm_tbl.set indx.toNat
                { (ptbl.tkm_tbl.getD indx.toNat default) with trk_psubjob := some () } }
            if ¬ enqueue_ok then
              let purged := { linked with
                tkm_tbl := linked.tkm_tbl.set indx.toNat
                  { (linked.tkm_tbl.getD indx.toNat default) with trk_psubjob := none } }
              ({ parent with ji_ajtrk := some purged }, Except.error PBSError.PBSE_IVALREQ)
            else
              ({ parent with ji_ajtrk := some linked }, Except.ok ())

/-- The expire-all loop of fixup_arrayindicies (lines 790-791). -/
def expireAll (ptbl : Ajtrkhd) : Ajtrkhd :=
  (List.range ptbl.tkm_ct).foldl
    (fun t (i : Nat) => set_subjob_tblstate t (i : Int) JOB_STATE_EXPIRED) ptbl

/-- The requeue loop body of fixup_arrayindicies (lines 797-798): each index
of the parsed segment is mapped to its offset and set queued (offset -1,
from an index that does not map, is a silent no-op of set_subjob_tblstate). -/
def requeueSeg (ptbl : Ajtrkhd) (idxs : List Int) : Ajtrkhd :=
  idxs.foldl (fun t i => set_subjob_tblstate t (numindex_to_offset t i) JOB_STATE_QUEUED) ptbl

/-- The parse-and-requeue while loop of fixup_arrayindicies (lines 794-800).
Fueled like expandGo. -/
def fixupGo : Nat → Ajtrkhd → List Char → Ajtrkhd
  | 0, ptbl, _ => ptbl
  | fuel + 1, ptbl, s =>
    match parse_subjob_index s with
    | ParseRes.ok ep start endv step _ => fixupGo fuel (requeueSeg ptbl (segIndices start endv step)) ep
    | ParseRes.done _ => ptbl
    | ParseRes.err => ptbl

/-- fixup_arrayindicies (array_func.c lines 771-803) at table level: the
guards, then expire everything and requeue what the remaining text lists. -/
def fixup_arrayindicies (parent : ParentJob) (svrflags_here : Bool) (mode : AtrAction)
    (str : List Char) : Except PBSError ParentJob :=
  if ¬ parent.ji_svrflags_ArrayJob then Except.error PBSError.PBSE_BADATVAL
  else
    match parent.ji_ajtrk with
    | none => Except.error PBSError.PBSE_BADATVAL
    | some ptbl =>
      if svrflags_here ∧ mode = AtrAction.NEW then Except.ok parent
      else
        Except.ok { parent with
          ji_ajtrk := some (fixupGo (str.length + 1) (expireAll ptbl) str) }

/-- Number of tracking entries whose state field equals s (as an Int, to
compare with the histogram counters). -/
def countState (tbl : List Ajtrk) (s : Nat) : Int :=
  ((tbl.filter (fun e => e.trk_status = s)).length : Int)

/-- Invariant I1 of the spec: every histogram counter equals the number of
entries in that state. -/
def histInv (ptbl : Ajtrkhd) : Prop :=
  ∀ s, s < PBS_NUMJOBSTATE → histGet ptbl s = countState ptbl.tkm_tbl s

/-- Structural well-formedness the C layout gives for free: the histogram
array has PBS_NUMJOBSTATE slots and every stored state is a genuine job
state. -/
def histWF (ptbl : Ajtrkhd) : Prop :=
  ptbl.tkm_subjsct.length = PBS_NUMJOBSTATE ∧
  ∀ e ∈ ptbl.tkm_tbl, e.trk_status < PBS_NUMJOBSTATE

instance (ptbl : Ajtrkhd) : Decidable (histInv ptbl) := by
  unfold histInv
  infer_instance

instance (ptbl : Ajtrkhd) : Decidable (histWF ptbl) := by
  unfold histWF
  infer_instance

/-- A sequence of set_subjob_tblstate calls. -/
def applyOps (ptbl : Ajtrkhd) (ops : List (Int × Nat)) : Ajtrkhd :=
  ops.foldl (fun t p => set_subjob_tblstate t p.1 p.2) ptbl

/-! ## Helper lemmas: characters, digits, strtol -/

theorem dropWhile_length_le (p : Char → Bool) (l : List Char) :
    (l.dropWhile p).length ≤ l.length := by
  induction l with
  | nil => simp
  | cons c t ih =>
    rw [List.dropWhile_cons]
    split
    · exact Nat.le_trans ih (Nat.le_succ _)
    · exact Nat.le_refl _

theorem dropWhile_cons_of_neg {p : Char → Bool} {c : Char} {t : List Char} (h : p c = false) :
    (c :: t).dropWhile p = c :: t := by
  rw [List.dropWhile_cons, h]
  simp

theorem skipSpace_length_le (s : List Char) : (skipSpace s).length ≤ s.length :=
  dropWhile_length_le _ s

theorem skipSpaceComma_length_le (s : List Char) : (skipSpaceComma s).length ≤ s.length :=
  dropWhile_length_le _ s

theorem digit_not_space {c : Char} (h : cIsDigit c = true) : cIsSpace c = false := by
  simp only [cIsDigit, Bool.and_eq_true, decide_eq_true_eq] at h
  simp only [cIsSpace, Bool.or_eq_false_iff, decide_eq_false_iff_not]
  refine ⟨⟨⟨⟨⟨?_, ?_⟩, ?_⟩, ?_⟩, ?_⟩, ?_⟩ <;> rintro rfl <;> simp_all

theorem digit_ne_chars {c : Char} (h : cIsDigit c = true) :
    c ≠ '-' ∧ c ≠ '+' ∧ c ≠ ',' ∧ c ≠ ']' ∧ c ≠ ':' := by
  simp only [cIsDigit, Bool.and_eq_true, decide_eq_true_eq] at h
  refine ⟨?_, ?_, ?_, ?_, ?_⟩ <;> rintro rfl <;> simp_all

theorem skipSpace_digit {c : Char} {t : List Char} (h : cIsDigit c = true) :
    skipSpace (c :: t) = c :: t :=
  dropWhile_cons_of_neg (digit_not_space h)

theorem skipSpaceComma_digit {c : Char} {t : List Char} (h : cIsDigit c = true) :
    skipSpaceComma (c :: t) = c :: t := by
  refine dropWhile_cons_of_neg ?_
  rw [digit_not_space h]
  simp only [Bool.false_or, decide_eq_false_iff_not]
  exact (digit_ne_chars h).2.2.1

theorem cIsDigit_digCh (d : Nat) : cIsDigit (digCh d) = true := by
  match d with
  | 0 | 1 | 2 | 3 | 4 | 5 | 6 | 7 | 8 => decide
  | n + 9 => show cIsDigit '9' = true; decide

theorem digCh_toNat {d : Nat} (h : d < 10) : (digCh d).toNat = 48 + d := by
  interval_cases d <;> decide

/-- natDigitsGo ignores the fuel as soon as it covers the value. -/
theorem natDigitsGo_fuel {n : Nat} : ∀ {f1 f2 : Nat}, n ≤ f1 → n ≤ f2 →
    natDigitsGo f1 n = natDigitsGo f2 n := by
  induction n using Nat.strong_induction_on with
  | _ n ih =>
    intro f1 f2 h1 h2
    match n, f1, f2 with
    | 0, 0, 0 => rfl
    | 0, 0, _ + 1 => simp [natDigitsGo]
    | 0, _ + 1, 0 => simp [natDigitsGo]
    | 0, _ + 1, _ + 1 => simp [natDigitsGo]
    | n + 1, g1 + 1, g2 + 1 =>
      simp only [natDigitsGo, Nat.succ_ne_zero, if_false, List.append_cancel_right_eq]
      have hd : (n + 1) / 10 < n + 1 := Nat.div_lt_self (Nat.succ_pos n) (by omega)
      exact ih _ hd (by omega) (by omega)

theorem natDigitsGo_zero (fuel : Nat) : natDigitsGo fuel 0 = [] := by
  cases fuel <;> simp [natDigitsGo]

theorem natDigitsGo_eq_natDigits {n fuel : Nat} (h0 : n ≠ 0) (hf : n ≤ fuel) :
    natDigitsGo fuel n = natDigits n := by
  rw [natDigits, if_neg h0]
  exact natDigitsGo_fuel hf (Nat.le_succ n)

theorem natDigits_all_digits (n : Nat) : ∀ c ∈ natDigits n, cIsDigit c = true := by
  induction n using Nat.strong_induction_on with
  | _ n ih =>
    intro c hc
    rcases Nat.eq_zero_or_pos n with rfl | hpos
    · simp only [natDigits, if_pos] at hc
      rw [List.mem_singleton] at hc
      subst hc; decide
    · rw [natDigits, if_neg (Nat.pos_iff_ne_zero.mp hpos), natDigitsGo,
        if_neg (Nat.pos_iff_ne_zero.mp hpos)] at hc
      rcases List.mem_append.mp hc with h | h
      · rcases Nat.eq_zero_or_pos (n / 10) with hz | hdpos
        · rw [hz, natDigitsGo_zero] at h
          simp at h
        · rw [natDigitsGo_eq_natDigits (Nat.pos_iff_ne_zero.mp hdpos)
            (by omega)] at h
          exact ih _ (Nat.div_lt_self hpos (by omega)) c h
      · simp only [List.mem_singleton] at h
        subst h
        exact cIsDigit_digCh _

theorem natDigits_ne_nil (n : Nat) : natDigits n ≠ [] := by
  rcases Nat.eq_zero_or_pos n with rfl | hpos
  · simp [natDigits]
  · rw [natDigits, if_neg (Nat.pos_iff_ne_zero.mp hpos), natDigitsGo,
      if_neg (Nat.pos_iff_ne_zero.mp hpos)]
    simp

theorem digitsVal_append_single (ds : List Char) (c : Char) :
    digitsVal (ds ++ [c]) = 10 * digitsVal ds + (c.toNat - 48) := by
  simp [digitsVal, List.foldl_append]

theorem digitsVal_natDigits (n : Nat) : digitsVal (natDigits n) = n := by
  induction n using Nat.strong_induction_on with
  | _ n ih =>
    rcases Nat.eq_zero_or_pos n with rfl | hpos
    · decide
    · rw [natDigits, if_neg (Nat.pos_iff_ne_zero.mp hpos), natDigitsGo,
        if_neg (Nat.pos_iff_ne_zero.mp hpos), digitsVal_append_single]
      rcases Nat.eq_zero_or_pos (n / 10) with hz | hdpos
      · have hn : n < 10 := by omega
        rw [hz, natDigitsGo_zero]
        show 10 * digitsVal [] + _ = n
        simp only [digitsVal, List.foldl_nil]
        rw [digCh_toNat (Nat.mod_lt n (by omega))]
        omega
      · rw [natDigitsGo_eq_natDigits (Nat.pos_iff_ne_zero.mp hdpos) (by omega),
          ih _ (Nat.div_lt_self hpos (by omega)),
          digCh_toNat (Nat.mod_lt n (by omega))]
        omega

/-- The next character, if any, is not a digit. -/
def noDigitHead : List Char → Prop
  | [] => True
  | c :: _ => cIsDigit c = false

theorem takeWhile_digits {ds r : List Char} (hds : ∀ c ∈ ds, cIsDigit c = true)
    (hr : noDigitHead r) : (ds ++ r).takeWhile cIsDigit = ds := by
  induction ds with
  | nil =>
    cases r with
    | nil => rfl
    | cons c t =>
      simp only [List.nil_append, List.takeWhile_cons]
      rw [hr]
      simp
  | cons c t ih =>
    simp only [List.cons_append, List.takeWhile_cons]
    rw [hds c (List.mem_cons_self c t)]
    simp only [if_true]
    rw [ih (fun x hx => hds x (List.mem_cons_of_mem c hx))]

theorem dropWhile_digits {ds r : List Char} (hds : ∀ c ∈ ds, cIsDigit c = true)
    (hr : noDigitHead r) : (ds ++ r).dropWhile cIsDigit = r := by
  induction ds with
  | nil =>
    cases r with
    | nil => rfl
    | cons c t =>
      simp only [List.nil_append]
      exact dropWhile_cons_of_neg hr
  | cons c t ih =>
    simp only [List.cons_append, List.dropWhile_cons]
    rw [hds c (List.mem_cons_self c t)]
    simp only [if_true]
    exact ih (fun x hx => hds x (List.mem_cons_of_mem c hx))

theorem strtol_natDigits (n : Nat) {r : List Char} (hr : noDigitHead r) :
    strtol (natDigits n ++ r) = ((n : Int), r) := by
  rcases hcons : natDigits n with _ | ⟨c, t⟩
  · exact absurd hcons (natDigits_ne_nil n)
  have hcd : cIsDigit c = true :=
    natDigits_all_digits n c (by rw [hcons]; exact List.mem_cons_self c t)
  have hskip : skipSpace (natDigits n ++ r) = c :: (t ++ r) := by
    rw [hcons, List.cons_append]
    exact dropWhile_cons_of_neg (digit_not_space hcd)
  have htake : (natDigits n ++ r).takeWhile cIsDigit = natDigits n :=
    takeWhile_digits (natDigits_all_digits n) hr
  have hdrop : (natDigits n ++ r).dropWhile cIsDigit = r :=
    dropWhile_digits (natDigits_all_digits n) hr
  have hne : c ≠ '-' := (digit_ne_chars hcd).1
  have hne2 : c ≠ '+' := (digit_ne_chars hcd).2.1
  have hback : c :: (t ++ r) = natDigits n ++ r := by rw [hcons]; rfl
  rw [← hcons]
  simp only [strtol]
  rw [hskip]
  dsimp only
  rw [if_neg hne, if_neg hne2]
  rw [hback, htake, hdrop, if_neg (natDigits_ne_nil n), digitsVal_natDigits]
  simp

theorem skipOneSpace_length_le (s : List Char) : (skipOneSpace s).length ≤ s.length := by
  cases s with
  | nil => exact Nat.le_refl _
  | cons e r =>
    simp only [skipOneSpace]
    split <;> simp

theorem skipOneComma_length_le (s : List Char) : (skipOneComma s).length ≤ s.length := by
  cases s with
  | nil => exact Nat.le_refl _
  | cons f r =>
    simp only [skipOneComma]
    split <;> simp

theorem strtol_snd_le (s : List Char) : (strtol s).2.length ≤ s.length := by
  have hs1 := skipSpace_length_le s
  rcases h : skipSpace s with _ | ⟨c, r⟩
  · simp only [strtol, h]
    split
    · exact Nat.le_refl _
    · simp
  · rw [h] at hs1
    simp only [List.length_cons] at hs1
    by_cases hm : c = '-'
    · simp only [strtol, h, if_pos hm]
      split
      · exact Nat.le_refl _
      · exact Nat.le_trans (dropWhile_length_le _ _) (by omega)
    · by_cases hp : c = '+'
      · simp only [strtol, h, if_neg hm, if_pos hp]
        split
        · exact Nat.le_refl _
        · exact Nat.le_trans (dropWhile_length_le _ _) (by omega)
      · simp only [strtol, h, if_neg hm, if_neg hp]
        split
        · exact Nat.le_refl _
        · refine Nat.le_trans (dropWhile_length_le _ _) ?_
          simp only [List.length_cons]
          omega

theorem strtol_snd_lt {c : Char} {t : List Char} (hcd : cIsDigit c = true) :
    (strtol (c :: t)).2.length < (c :: t).length := by
  have hskip : skipSpace (c :: t) = c :: t := skipSpace_digit hcd
  have hne := digit_ne_chars hcd
  simp only [strtol, hskip, if_neg hne.1, if_neg hne.2.1]
  rw [List.takeWhile_cons, hcd]
  simp only [if_true]
  rw [if_neg (by simp)]
  rw [List.dropWhile_cons, hcd]
  simp only [if_true, List.length_cons]
  exact Nat.lt_succ_of_le (dropWhile_length_le _ _)

theorem strtol_fst_nonneg {c : Char} {t : List Char} (hcd : cIsDigit c = true) :
    0 ≤ (strtol (c :: t)).1 := by
  have hskip : skipSpace (c :: t) = c :: t := skipSpace_digit hcd
  have hne := digit_ne_chars hcd
  simp only [strtol, hskip, if_neg hne.1, if_neg hne.2.1]
  rw [List.takeWhile_cons, hcd]
  simp only [if_true]
  rw [if_neg (by simp)]
  simp

theorem parseStepPart_le {pc3 : List Char} {st : Int} {ep : List Char}
    (h : parseStepPart pc3 = some (st, ep)) : ep.length ≤ pc3.length := by
  cases pc3 with
  | nil =>
    simp only [parseStepPart, Option.some.injEq, Prod.mk.injEq] at h
    rw [← h.2]
  | cons e r =>
    simp only [parseStepPart] at h
    split at h
    · simp only [Option.some.injEq, Prod.mk.injEq] at h
      rw [← h.2]
    · split at h
      · simp only [Option.some.injEq, Prod.mk.injEq] at h
        rw [← h.2]
      · split at h
        · exact absurd h (by simp)
        · simp only [Option.some.injEq, Prod.mk.injEq] at h
          rw [← h.2]
          refine Nat.le_trans (skipOneComma_length_le _) ?_
          refine Nat.le_trans (skipSpace_length_le _) ?_
          refine Nat.le_trans (strtol_snd_le _) ?_
          refine Nat.le_trans (skipSpace_length_le _) ?_
          simp

theorem parseDash_ok {pc3 : List Char} {a b : Int} {ep : List Char} {s e st c : Int}
    (h : parseDash pc3 a b = ParseRes.ok ep s e st c) :
    s = a ∧ e = b ∧ a < b ∧ 1 ≤ st ∧ c = rangeCount a b st ∧
      parseStepPart pc3 = some (st, ep) := by
  unfold parseDash at h
  split at h
  · exact absurd h (by simp)
  next step0 ep0 heq =>
    split at h
    · exact absurd h (by simp)
    next hcond =>
      push_neg at hcond
      simp only [ParseRes.ok.injEq] at h
      obtain ⟨h1, h2, h3, h4, h5⟩ := h
      subst h1 h2 h3
      refine ⟨rfl, rfl, hcond.1, by omega, by rw [← h5, ← h4], by rw [heq, h4]⟩

/-- Inversion for the after-start part: the end pointer is a suffix no
longer than the input, start is returned as given, start ≤ end, step ≥ 1,
and the count is the (end - start + step) / step formula. -/
theorem parseAfterStart_inv {a : Int} {pc1 ep : List Char} {s e st c : Int}
    (h : parseAfterStart a pc1 = ParseRes.ok ep s e st c) :
    ep.length ≤ pc1.length ∧ s = a ∧ a ≤ e ∧ 1 ≤ st ∧ c = rangeCount s e st := by
  cases pc1 with
  | nil =>
    simp only [parseAfterStart, ParseRes.ok.injEq] at h
    obtain ⟨h1, h2, h3, h4, h5⟩ := h
    subst h2 h3 h4 h5
    rw [← h1]
    exact ⟨Nat.le_refl _, rfl, Int.le_refl _, Int.le_refl _, rfl⟩
  | cons d rest1 =>
    simp only [parseAfterStart] at h
    by_cases hcm : d = ','
    · rw [if_pos hcm] at h
      simp only [ParseRes.ok.injEq] at h
      obtain ⟨h1, h2, h3, h4, h5⟩ := h
      subst h2 h3 h4 h5
      rw [← h1]
      exact ⟨by simp, rfl, Int.le_refl _, Int.le_refl _, rfl⟩
    rw [if_neg hcm] at h
    by_cases hbk : d = ']'
    · rw [if_pos hbk] at h
      simp only [ParseRes.ok.injEq] at h
      obtain ⟨h1, h2, h3, h4, h5⟩ := h
      subst h2 h3 h4 h5
      rw [← h1]
      exact ⟨Nat.le_refl _, rfl, Int.le_refl _, Int.le_refl _, rfl⟩
    rw [if_neg hbk] at h
    by_cases hda : d = '-'
    case neg =>
      rw [if_pos hda] at h
      exact ParseRes.noConfusion h
    rw [if_neg (not_not_intro hda)] at h
    obtain ⟨hs, he, hlt, hst, hc, hstep⟩ := parseDash_ok h
    subst hs he
    have hep := parseStepPart_le hstep
    have hone := skipOneSpace_length_le (strtol rest1).2
    have hsnd := strtol_snd_le rest1
    refine ⟨by simp only [List.length_cons]; omega, rfl, Int.le_of_lt hlt, hst, hc⟩

/-- Inversion for a successful parse: the end pointer is a strictly shorter
suffix, start is non-negative, start ≤ end, step ≥ 1 and the count is the
(end - start + step) / step formula. -/
theorem parse_ok_inv {pc0 ep : List Char} {s e st c : Int}
    (h : parse_subjob_index pc0 = ParseRes.ok ep s e st c) :
    ep.length < pc0.length ∧ 0 ≤ s ∧ s ≤ e ∧ 1 ≤ st ∧ c = rangeCount s e st := by
  have hsk0 := skipSpaceComma_length_le pc0
  rcases hsk : skipSpaceComma pc0 with _ | ⟨c0, t0⟩
  · simp only [parse_subjob_index, hsk] at h
    exact ParseRes.noConfusion h
  rw [hsk] at hsk0
  simp only [List.length_cons] at hsk0
  simp only [parse_subjob_index, hsk] at h
  by_cases hbr : c0 = ']'
  · rw [if_pos hbr] at h
    exact absurd h (by simp)
  rw [if_neg hbr] at h
  by_cases hd : cIsDigit c0 = true
  case neg =>
    rw [if_pos (by simpa using hd)] at h
    exact absurd h (by simp)
  rw [if_neg (not_not_intro hd)] at h
  have hstr : (strtol (c0 :: t0)).2.length < t0.length + 1 := by
    simpa using strtol_snd_lt hd
  have hnn : 0 ≤ (strtol (c0 :: t0)).1 := strtol_fst_nonneg hd
  have hpc1le : (skipSpace (strtol (c0 :: t0)).2).length ≤ (strtol (c0 :: t0)).2.length :=
    skipSpace_length_le _
  obtain ⟨hlen, hsa, hse, hst, hc⟩ := parseAfterStart_inv h
  subst hsa
  exact ⟨by omega, hnn, hse, hst, hc⟩

/-- Shape of the text that follows a formatted segment: empty or starting
with the comma that separates it from the next segment. -/
def commaOrNil (Y : List Char) : Prop := Y = [] ∨ ∃ r, Y = ',' :: r

theorem commaOrNil_noDigitHead {Y : List Char} (h : commaOrNil Y) : noDigitHead Y := by
  rcases h with rfl | ⟨r, rfl⟩
  · trivial
  · show cIsDigit ',' = false
    decide

theorem commaOrNil_skipSpace {Y : List Char} (h : commaOrNil Y) : skipSpace Y = Y := by
  rcases h with rfl | ⟨r, rfl⟩
  · rfl
  · exact dropWhile_cons_of_neg (by decide)

theorem commaOrNil_skipOneSpace {Y : List Char} (h : commaOrNil Y) : skipOneSpace Y = Y := by
  rcases h with rfl | ⟨r, rfl⟩
  · rfl
  · simp only [skipOneSpace]
    rw [if_neg (by decide)]

theorem commaOrNil_parseStepPart {Y : List Char} (h : commaOrNil Y) :
    parseStepPart Y = some (1, Y) := by
  rcases h with rfl | ⟨r, rfl⟩
  · rfl
  · simp [parseStepPart]

/-- A successful number read at the head of a segment: the rest of the
parse only depends on what follows the digits. -/
theorem parse_natDigits_front (n : Nat) {X : List Char} (hX : noDigitHead X) :
    parse_subjob_index (natDigits n ++ X) = parseAfterStart (n : Int) (skipSpace X) := by
  rcases hcons : natDigits n with _ | ⟨c, t⟩
  · exact absurd hcons (natDigits_ne_nil n)
  have hcd : cIsDigit c = true :=
    natDigits_all_digits n c (by rw [hcons]; exact List.mem_cons_self c t)
  have hskc : skipSpaceComma (natDigits n ++ X) = c :: (t ++ X) := by
    rw [hcons, List.cons_append]
    refine dropWhile_cons_of_neg ?_
    rw [digit_not_space hcd]
    simp only [Bool.false_or, decide_eq_false_iff_not]
    exact (digit_ne_chars hcd).2.2.1
  have hstr : strtol (natDigits n ++ X) = ((n : Int), X) := strtol_natDigits n hX
  have hback : c :: (t ++ X) = natDigits n ++ X := by rw [hcons]; rfl
  have hbr : c ≠ ']' := (digit_ne_chars hcd).2.2.2.1
  rw [← hcons]
  simp only [parse_subjob_index, hskc]
  rw [if_neg hbr, if_neg (not_not_intro hcd), hback, hstr]

theorem rangeCount_single (n : Int) : rangeCount n n 1 = 1 := by
  simp [rangeCount]

/-- A bare number parses as the single-index segment with nothing left. -/
theorem parse_single_nil (n : Nat) :
    parse_subjob_index (natDigits n) = ParseRes.ok [] n n 1 1 := by
  have h := parse_natDigits_front n (X := []) trivial
  rw [List.append_nil] at h
  rw [h]
  simp only [parseAfterStart, skipSpace, List.dropWhile_nil, rangeCount_single]

/-- A number followed by a comma parses as the single-index segment, the
comma consumed. -/
theorem parse_single_comma (n : Nat) (r : List Char) :
    parse_subjob_index (natDigits n ++ ',' :: r) = ParseRes.ok r n n 1 1 := by
  have hX : noDigitHead (',' :: r) := by
    show cIsDigit ',' = false
    decide
  rw [parse_natDigits_front n hX]
  rw [commaOrNil_skipSpace (Or.inr ⟨r, rfl⟩)]
  simp only [parseAfterStart]
  rw [if_pos trivial, rangeCount_single]

/-- The dash form X-Y: the step part defaults to 1, the trailing comma (if
any) is left unconsumed, and the start >= end check decides success. -/
theorem parse_dash_form (n m : Nat) {Y : List Char} (hY : commaOrNil Y) :
    parse_subjob_index (natDigits n ++ '-' :: (natDigits m ++ Y)) =
      if (n : Int) ≥ m ∨ (1 : Int) < 1 then ParseRes.err
      else ParseRes.ok Y n m 1 (rangeCount n m 1) := by
  have hX : noDigitHead ('-' :: (natDigits m ++ Y)) := by
    show cIsDigit '-' = false
    decide
  rw [parse_natDigits_front n hX]
  have hsp : skipSpace ('-' :: (natDigits m ++ Y)) = '-' :: (natDigits m ++ Y) :=
    dropWhile_cons_of_neg (by decide)
  rw [hsp]
  simp only [parseAfterStart]
  rw [if_neg (by decide), if_neg (by decide), if_neg (not_not_intro rfl)]
  rw [strtol_natDigits m (commaOrNil_noDigitHead hY)]
  rw [commaOrNil_skipOneSpace hY]
  simp only [parseDash, commaOrNil_parseStepPart hY]

/-- The dash-step form X-Y:Z: the step is read, spaces skipped, one trailing
comma consumed, and the checks start >= end and step < 1 decide success. -/
theorem parse_dash_step_form (n m z : Nat) {Y : List Char} (hY : commaOrNil Y) :
    parse_subjob_index (natDigits n ++ '-' :: (natDigits m ++ ':' :: (natDigits z ++ Y))) =
      if (n : Int) ≥ m ∨ (z : Int) < 1 then ParseRes.err
      else ParseRes.ok (skipOneComma Y) n m z (rangeCount n m z) := by
  have hX : noDigitHead ('-' :: (natDigits m ++ ':' :: (natDigits z ++ Y))) := by
    show cIsDigit '-' = false
    decide
  rw [parse_natDigits_front n hX]
  have hsp : skipSpace ('-' :: (natDigits m ++ ':' :: (natDigits z ++ Y))) =
      '-' :: (natDigits m ++ ':' :: (natDigits z ++ Y)) :=
    dropWhile_cons_of_neg (by decide)
  rw [hsp]
  simp only [parseAfterStart]
  rw [if_neg (by decide), if_neg (by decide), if_neg (not_not_intro rfl)]
  have hcolon : noDigitHead (':' :: (natDigits z ++ Y)) := by
    show cIsDigit ':' = false
    decide
  rw [strtol_natDigits m hcolon]
  have hone : skipOneSpace (':' :: (natDigits z ++ Y)) = ':' :: (natDigits z ++ Y) := by
    simp only [skipOneSpace]
    rw [if_neg (by decide)]
  rw [hone]
  simp only [parseDash, parseStepPart]
  rw [if_neg (by decide), if_neg (by decide), if_neg (not_not_intro rfl)]
  have hdig : skipSpace (natDigits z ++ Y) = natDigits z ++ Y := by
    rcases hcons : natDigits z with _ | ⟨c, t⟩
    · exact absurd hcons (natDigits_ne_nil z)
    have hcd : cIsDigit c = true :=
      natDigits_all_digits z c (by rw [hcons]; exact List.mem_cons_self c t)
    rw [← hcons, hcons, List.cons_append]
    exact dropWhile_cons_of_neg (digit_not_space hcd)
  rw [hdig, strtol_natDigits z (commaOrNil_noDigitHead hY)]
  rw [commaOrNil_skipSpace hY]

/-- The sentinel text "-" (and anything else that starts with a dash) is a
parse format error, not an empty segment list. -/
theorem parse_dash_err (s : List Char) : parse_subjob_index ('-' :: s) = ParseRes.err := by
  have hsk : skipSpaceComma ('-' :: s) = '-' :: s := dropWhile_cons_of_neg (by decide)
  simp only [parse_subjob_index, hsk]
  rw [if_neg (by decide), if_pos (by decide)]

/-- Leading commas are skipped: parsing from the separator or just after it
is the same. -/
theorem parse_comma_cons (s : List Char) :
    parse_subjob_index (',' :: s) = parse_subjob_index s := by
  have h : skipSpaceComma (',' :: s) = skipSpaceComma s := by
    simp only [skipSpaceComma, List.dropWhile_cons]
    rw [if_pos (by decide)]
  simp only [parse_subjob_index, h]

/-! ## Expansion loop and segment arithmetic -/

theorem expandGo_fuel : ∀ (f1 f2 : Nat) (s : List Char),
    s.length < f1 → s.length < f2 → expandGo f1 s = expandGo f2 s := by
  intro f1
  induction f1 using Nat.strong_induction_on with
  | _ f1 ih =>
    intro f2 s h1 h2
    match f1, f2 with
    | g1 + 1, g2 + 1 =>
      cases hp : parse_subjob_index s with
      | ok ep a b st c =>
        simp only [expandGo, hp]
        have hlt := (parse_ok_inv hp).1
        have e1 : expandGo g1 ep = expandGo (ep.length + 1) ep :=
          ih g1 (Nat.lt_succ_self _) (ep.length + 1) ep (by omega) (by omega)
        have e2 : expandGo (ep.length + 1) ep = expandGo g2 ep :=
          ih (ep.length + 1) (by omega) g2 ep (by omega) (by omega)
        rw [e1, e2]
      | done ep => simp only [expandGo, hp]
      | err => simp only [expandGo, hp]

theorem expandText_ok {s ep : List Char} {a b st c : Int}
    (hp : parse_subjob_index s = ParseRes.ok ep a b st c) :
    expandText s = segIndices a b st ++ expandText ep := by
  have hlt := (parse_ok_inv hp).1
  simp only [expandText, expandGo, hp]
  congr 1
  exact expandGo_fuel s.length (ep.length + 1) ep (by omega) (by omega)

theorem expandText_done {s ep : List Char} (hp : parse_subjob_index s = ParseRes.done ep) :
    expandText s = [] := by
  simp only [expandText, expandGo, hp]

theorem expandText_err {s : List Char} (hp : parse_subjob_index s = ParseRes.err) :
    expandText s = [] := by
  simp only [expandText, expandGo, hp]

theorem expandText_comma (s : List Char) : expandText (',' :: s) = expandText s := by
  cases hp : parse_subjob_index s with
  | ok ep a b st c =>
    have hp2 : parse_subjob_index (',' :: s) = ParseRes.ok ep a b st c := by
      rw [parse_comma_cons, hp]
    rw [expandText_ok hp2, expandText_ok hp]
  | done ep =>
    rw [expandText_done (by rw [parse_comma_cons, hp]), expandText_done hp]
  | err =>
    rw [expandText_err (by rw [parse_comma_cons, hp]), expandText_err hp]

theorem expandText_skipOneComma {Y : List Char} (hY : commaOrNil Y) :
    expandText (skipOneComma Y) = expandText Y := by
  rcases hY with rfl | ⟨r, rfl⟩
  · rfl
  · simp only [skipOneComma]
    rw [if_pos trivial, expandText_comma]

theorem expandText_optComma (pcomma : Bool) (s : List Char) :
    expandText ((if pcomma then [','] else []) ++ s) = expandText s := by
  cases pcomma
  · simp
  · simp only [if_true, List.singleton_append]
    exact expandText_comma s

/-- for (i = start; i <= end; i += step) unfolds one iteration at a time. -/
theorem segIndices_unfold {a b st : Int} (hst : 0 < st) :
    segIndices a b st = if a ≤ b then a :: segIndices (a + st) b st else [] := by
  by_cases hab : a ≤ b
  · rw [if_pos hab]
    rw [segIndices, if_pos ⟨hst, hab⟩]
    have hq : 0 ≤ (b - a) / st := Int.ediv_nonneg (by omega) (by omega)
    have htn : ((b - a) / st + 1).toNat = ((b - a) / st).toNat + 1 := by omega
    rw [htn, segIndicesGo]
    congr 1
    by_cases hab2 : a + st ≤ b
    · rw [segIndices, if_pos ⟨hst, hab2⟩]
      have : (b - a) / st = (b - (a + st)) / st + 1 := by
        have h10 : b - a = b - (a + st) + 1 * st := by ring
        rw [h10, Int.add_mul_ediv_right _ _ (by omega)]
      rw [this]
    · rw [segIndices, if_neg (by tauto)]
      have hz : (b - a) / st = 0 := Int.ediv_eq_zero_of_lt (by omega) (by omega)
      rw [hz]
      rfl
  · rw [if_neg hab, segIndices, if_neg (by tauto)]

theorem segIndices_single (n : Int) : segIndices n n 1 = [n] := by
  rw [segIndices_unfold Int.one_pos, if_pos (Int.le_refl n)]
  rw [segIndices_unfold Int.one_pos, if_neg (by omega)]

theorem rangeCount_step {a b st : Int} (hst : 1 ≤ st) (_hab : a ≤ b) :
    rangeCount a b st = (b - a) / st + 1 := by
  have h10 : b - a + st = b - a + 1 * st := by ring
  rw [rangeCount, h10, Int.add_mul_ediv_right _ _ (by omega)]

theorem rangeCount_pos {a b st : Int} (hst : 1 ≤ st) (hab : a ≤ b) :
    1 ≤ rangeCount a b st := by
  rw [rangeCount_step hst hab]
  have : 0 ≤ (b - a) / st := Int.ediv_nonneg (by omega) (by omega)
  omega

theorem segIndices_length {st : Int} (hst : 1 ≤ st) : ∀ (k : Nat) (a b : Int),
    (b - a).toNat ≤ k → a ≤ b → (segIndices a b st).length = (rangeCount a b st).toNat := by
  intro k
  induction k with
  | zero =>
    intro a b hk hab
    have hba : b = a := by omega
    subst hba
    rw [segIndices_unfold (by omega), if_pos hab, segIndices_unfold (by omega),
      if_neg (by omega), rangeCount_step hst hab]
    have : (b - b) / st = 0 := by simp
    rw [this]
    rfl
  | succ k ih =>
    intro a b hk hab
    rw [segIndices_unfold (by omega), if_pos hab]
    by_cases hab2 : a + st ≤ b
    · rw [List.length_cons, ih (a + st) b (by omega) hab2,
        rangeCount_step hst hab, rangeCount_step hst hab2]
      have hsplit : b - a = b - (a + st) + 1 * st := by ring
      rw [hsplit, Int.add_mul_ediv_right _ _ (by omega)]
      have h1 : 0 ≤ (b - (a + st)) / st := Int.ediv_nonneg (by omega) (by omega)
      omega
    · rw [segIndices_unfold (by omega), if_neg hab2, rangeCount_step hst hab]
      have : (b - a) / st = 0 := Int.ediv_eq_zero_of_lt (by omega) (by omega)
      rw [this]
      rfl

/-- The indices of one segment covering the offsets f .. f+len of a table
with the given start and step. -/
theorem segIndices_offsets (start step : Int) (hst : 0 < step) : ∀ (len f : Nat),
    segIndices (start + (f : Int) * step) (start + ((f + len : Nat) : Int) * step) step =
      (List.range' f (len + 1)).map (fun o : Nat => start + (o : Int) * step) := by
  intro len
  induction len with
  | zero =>
    intro f
    have hf0 : f + 0 = f := rfl
    rw [hf0, List.range'_succ]
    rw [segIndices_unfold hst, if_pos (Int.le_refl _),
      segIndices_unfold hst, if_neg (by omega)]
    simp
  | succ len ih =>
    intro f
    have hcast : ((f + (len + 1) : Nat) : Int) = ((f + 1 + len : Nat) : Int) := by
      push_cast
      ring
    have hle : start + (f : Int) * step ≤ start + ((f + (len + 1) : Nat) : Int) * step := by
      have h1 : (f : Int) ≤ ((f + (len + 1) : Nat) : Int) := by
        exact_mod_cast Nat.le_add_right f (len + 1)
      nlinarith
    rw [segIndices_unfold hst, if_pos hle]
    have h2 : start + (f : Int) * step + step = start + ((f + 1 : Nat) : Int) * step := by
      push_cast
      ring
    rw [h2, hcast, ih (f + 1), List.range'_succ, List.map_cons]
    simp [List.range'_succ]

/-! ## The formatter loop and its inverse -/

theorem matchFrom_stop {ptbl : Ajtrkhd} {state first : Nat} (h : ptbl.tkm_ct ≤ first) :
    matchFrom ptbl state first = [] := by
  unfold matchFrom
  rw [Nat.sub_eq_zero_of_le h]
  rfl

theorem matchFrom_cons {ptbl : Ajtrkhd} {state first : Nat} (h : first < ptbl.tkm_ct) :
    matchFrom ptbl state first =
      (if entStatus ptbl first = state then [SJ_TBLIDX_2_IDX ptbl (first : Int)] else []) ++
        matchFrom ptbl state (first + 1) := by
  unfold matchFrom
  have hct : ptbl.tkm_ct - first = (ptbl.tkm_ct - (first + 1)) + 1 := by omega
  rw [hct, List.range'_succ, List.filter_cons]
  by_cases hs : entStatus ptbl first = state
  · rw [if_pos (by simpa using hs), if_pos hs]
    rfl
  · rw [if_neg (by simpa using hs), if_neg hs]
    rfl

/-- A run of offsets first..last all in the state splits off the front of
matchFrom. -/
theorem matchFrom_run {ptbl : Ajtrkhd} {state : Nat} : ∀ (len first : Nat),
    first + len < ptbl.tkm_ct →
    (∀ j, first ≤ j → j ≤ first + len → entStatus ptbl j = state) →
    matchFrom ptbl state first =
      (List.range' first (len + 1)).map (fun o : Nat => SJ_TBLIDX_2_IDX ptbl (o : Int)) ++
        matchFrom ptbl state (first + len + 1) := by
  intro len
  induction len with
  | zero =>
    intro first hlt hall
    rw [matchFrom_cons (by omega), if_pos (hall first (Nat.le_refl _) (by omega))]
    simp [List.range'_succ]
  | succ len ih =>
    intro first hlt hall
    rw [matchFrom_cons (by omega), if_pos (hall first (Nat.le_refl _) (by omega))]
    rw [ih (first + 1) (by omega) (fun j h1 h2 => hall j (by omega) (by omega))]
    simp only [List.range'_succ, List.map_cons, List.singleton_append, List.cons_append]
    have : first + 1 + len + 1 = first + (len + 1) + 1 := by omega
    rw [this]
    simp

/-- What the inner run-extension loop of cvt_range returns: a maximal run
end, staying inside the table, covering only entries in the state, and
stopped by the table end or a different state. -/
theorem runEnd_spec (ptbl : Ajtrkhd) (state : Nat) : ∀ (fuel last next : Nat),
    next = last + 1 → last < ptbl.tkm_ct → ptbl.tkm_ct ≤ fuel + next →
    last ≤ runEnd ptbl state fuel last next ∧
    runEnd ptbl state fuel last next < ptbl.tkm_ct ∧
    (∀ j, last < j → j ≤ runEnd ptbl state fuel last next → entStatus ptbl j = state) ∧
    (ptbl.tkm_ct ≤ runEnd ptbl state fuel last next + 1 ∨
      entStatus ptbl (runEnd ptbl state fuel last next + 1) ≠ state) := by
  intro fuel
  induction fuel with
  | zero =>
    intro last next hnext hlast hfuel
    simp only [runEnd]
    exact ⟨Nat.le_refl _, hlast, fun j h1 h2 => absurd (Nat.lt_of_lt_of_le h1 h2) (Nat.lt_irrefl _),
      Or.inl (by omega)⟩
  | succ fuel ih =>
    intro last next hnext hlast hfuel
    simp only [runEnd]
    by_cases h1 : next < ptbl.tkm_ct
    · rw [if_pos h1]
      by_cases h2 : entStatus ptbl next = state
      · rw [if_pos h2]
        obtain ⟨ha, hb, hc, hd⟩ := ih next (next + 1) rfl h1 (by omega)
        refine ⟨by omega, hb, ?_, hd⟩
        intro j hj1 hj2
        rcases Nat.lt_or_ge next j with hj | hj
        · exact hc j hj hj2
        · have : j = next := by omega
          subst this
          exact h2
      · rw [if_neg h2]
        exact ⟨Nat.le_refl _, hlast, fun j hj1 hj2 => absurd (Nat.lt_of_lt_of_le hj1 hj2) (Nat.lt_irrefl _),
          Or.inr (by rw [← hnext]; exact h2)⟩
    · rw [if_neg h1]
      exact ⟨Nat.le_refl _, hlast, fun j hj1 hj2 => absurd (Nat.lt_of_lt_of_le hj1 hj2) (Nat.lt_irrefl _),
        Or.inl (by omega)⟩

/-- The outer cvt loop with the comma flag set emits either nothing or a
leading comma. -/
theorem cvtGo_true_comma (ptbl : Ajtrkhd) (state : Nat) : ∀ (fuel first : Nat),
    commaOrNil (cvtGo ptbl state fuel first true) := by
  intro fuel
  induction fuel with
  | zero =>
    intro first
    exact Or.inl rfl
  | succ fuel ih =>
    intro first
    simp only [cvtGo]
    by_cases h1 : first < ptbl.tkm_ct
    · rw [if_pos h1]
      by_cases h2 : entStatus ptbl first = state
      · rw [if_pos h2]
        exact Or.inr ⟨_, rfl⟩
      · rw [if_neg h2]
        exact ih (first + 1)
    · rw [if_neg h1]
      exact Or.inl rfl

theorem expandText_nil : expandText [] = [] := rfl

theorem expandText_single_then (m : Nat) {T : List Char} (hT : commaOrNil T) :
    expandText (natDigits m ++ T) = (m : Int) :: expandText T := by
  rcases hT with rfl | ⟨r, rfl⟩
  · rw [List.append_nil, expandText_ok (parse_single_nil m), segIndices_single, expandText_nil]
    rfl
  · rw [expandText_ok (parse_single_comma m r), segIndices_single, expandText_comma]
    rfl

theorem expandText_dash (n m : Nat) (h : n < m) {T : List Char} (hT : commaOrNil T) :
    expandText (natDigits n ++ '-' :: (natDigits m ++ T)) =
      segIndices (n : Int) (m : Int) 1 ++ expandText T := by
  have hp : parse_subjob_index (natDigits n ++ '-' :: (natDigits m ++ T)) =
      ParseRes.ok T (n : Int) (m : Int) 1 (rangeCount (n : Int) (m : Int) 1) := by
    rw [parse_dash_form n m hT, if_neg (by push_neg; omega)]
  rw [expandText_ok hp]

theorem expandText_dash_step (n m z : Nat) (h : n < m) (hz : 1 ≤ z) {T : List Char}
    (hT : commaOrNil T) :
    expandText (natDigits n ++ '-' :: (natDigits m ++ ':' :: (natDigits z ++ T))) =
      segIndices (n : Int) (m : Int) (z : Int) ++ expandText T := by
  have hp : parse_subjob_index (natDigits n ++ '-' :: (natDigits m ++ ':' :: (natDigits z ++ T))) =
      ParseRes.ok (skipOneComma T) (n : Int) (m : Int) (z : Int)
        (rangeCount (n : Int) (m : Int) (z : Int)) := by
    rw [parse_dash_step_form n m z hT, if_neg (by push_neg; constructor <;> exact_mod_cast by omega)]
  rw [expandText_ok hp, expandText_skipOneComma hT]

theorem intChars_of_nonneg {i : Int} (h : 0 ≤ i) : intChars i = natDigits i.toNat := by
  rw [intChars, if_neg (by omega)]

theorem idx_nonneg {ptbl : Ajtrkhd} (hstart : 0 ≤ ptbl.tkm_start) (hstep : 1 ≤ ptbl.tkm_step)
    (o : Nat) : 0 ≤ SJ_TBLIDX_2_IDX ptbl (o : Int) := by
  unfold SJ_TBLIDX_2_IDX
  have h0 : (0 : Int) ≤ (o : Int) := Int.natCast_nonneg o
  nlinarith

theorem idx_lt {ptbl : Ajtrkhd} (hstep : 1 ≤ ptbl.tkm_step) {o p : Nat} (h : o < p) :
    SJ_TBLIDX_2_IDX ptbl (o : Int) < SJ_TBLIDX_2_IDX ptbl (p : Int) := by
  unfold SJ_TBLIDX_2_IDX
  have h1 : (o : Int) < (p : Int) := by exact_mod_cast h
  nlinarith

/-- Round trip of the cvt_range loop against re-parsing, from any offset:
the re-parsed expansion of the emitted text is exactly the list of external
indices of the matching entries at or after the offset. -/
theorem cvt_expand (ptbl : Ajtrkhd) (state : Nat) (hstart : 0 ≤ ptbl.tkm_start)
    (hstep : 1 ≤ ptbl.tkm_step) : ∀ (fuel first : Nat) (pcomma : Bool),
    ptbl.tkm_ct ≤ fuel + first →
    expandText (cvtGo ptbl state fuel first pcomma) = matchFrom ptbl state first := by
  intro fuel
  induction fuel with
  | zero =>
    intro first pcomma hf
    simp only [cvtGo]
    rw [matchFrom_stop (by omega), expandText_nil]
  | succ fuel ih =>
    intro first pcomma hf
    by_cases hfc : first < ptbl.tkm_ct
    case neg =>
      simp only [cvtGo]
      rw [if_neg hfc, matchFrom_stop (by omega), expandText_nil]
    by_cases hsx : entStatus ptbl first = state
    case neg =>
      simp only [cvtGo]
      rw [if_pos hfc, if_neg hsx, ih (first + 1) pcomma (by omega),
        matchFrom_cons hfc, if_neg hsx, List.nil_append]
    simp only [cvtGo]
    rw [if_pos hfc, if_pos hsx]
    obtain ⟨hl1, hl2, hl3, hl4⟩ :=
      runEnd_spec ptbl state ptbl.tkm_ct first (first + 1) rfl hfc (by omega)
    set last := runEnd ptbl state ptbl.tkm_ct first (first + 1) with hlastdef
    have hT : commaOrNil (cvtGo ptbl state fuel (last + 1) true) :=
      cvtGo_true_comma ptbl state fuel (last + 1)
    have hIH : expandText (cvtGo ptbl state fuel (last + 1) true) =
        matchFrom ptbl state (last + 1) := ih (last + 1) true (by omega)
    set T := cvtGo ptbl state fuel (last + 1) true with hTdef
    have hnn1 : 0 ≤ SJ_TBLIDX_2_IDX ptbl (first : Int) := idx_nonneg hstart hstep first
    have hnn2 : 0 ≤ SJ_TBLIDX_2_IDX ptbl (last : Int) := idx_nonneg hstart hstep last
    have hn1 : ((SJ_TBLIDX_2_IDX ptbl (first : Int)).toNat : Int) =
        SJ_TBLIDX_2_IDX ptbl (first : Int) := Int.toNat_of_nonneg hnn1
    have hn2 : ((SJ_TBLIDX_2_IDX ptbl (last : Int)).toNat : Int) =
        SJ_TBLIDX_2_IDX ptbl (last : Int) := Int.toNat_of_nonneg hnn2
    rw [intChars_of_nonneg hnn1]
    by_cases hrun2 : first + 1 < last
    · -- a run of three or more entries: the N-M or N-M:S form
      rw [if_pos hrun2]
      have hm12 : (SJ_TBLIDX_2_IDX ptbl (first : Int)).toNat <
          (SJ_TBLIDX_2_IDX ptbl (last : Int)).toNat := by
        have := @idx_lt ptbl hstep first last (by omega)
        omega
      have hmr := @matchFrom_run ptbl state (last - first) first (by omega)
        (fun j h1 h2 => by
          rcases Nat.eq_or_lt_of_le h1 with rfl | hlt2
          · exact hsx
          · exact hl3 j hlt2 (by omega))
      have hoff := segIndices_offsets ptbl.tkm_start ptbl.tkm_step (by omega) (last - first) first
      have hfl : first + (last - first) = last := by omega
      rw [hfl] at hoff hmr
      by_cases hstp : 1 < ptbl.tkm_step
      · rw [if_pos hstp]
        rw [intChars_of_nonneg hnn2, intChars_of_nonneg (by omega : (0:Int) ≤ ptbl.tkm_step)]
        simp only [List.append_assoc, List.singleton_append, List.cons_append, List.nil_append]
        rw [expandText_optComma]
        rw [expandText_dash_step _ _ _ hm12 (by omega) hT]
        rw [hn1, hn2, Int.toNat_of_nonneg (by omega : (0:Int) ≤ ptbl.tkm_step)]
        rw [hIH, hmr]
        have hfin : segIndices (SJ_TBLIDX_2_IDX ptbl (first : Int))
            (SJ_TBLIDX_2_IDX ptbl (last : Int)) ptbl.tkm_step =
            List.map (fun o : Nat => SJ_TBLIDX_2_IDX ptbl (o : Int))
              (List.range' first (last - first + 1)) := by
          simp only [SJ_TBLIDX_2_IDX]
          exact hoff
        rw [hfin]
      · rw [if_neg hstp]
        have hstep1 : ptbl.tkm_step = 1 := by omega
        rw [intChars_of_nonneg hnn2]
        simp only [List.append_assoc, List.singleton_append, List.cons_append, List.nil_append,
          List.append_nil]
        rw [expandText_optComma]
        rw [expandText_dash _ _ hm12 hT]
        rw [hn1, hn2]
        rw [hIH, hmr]
        rw [hstep1] at hoff
        have hfin : segIndices (SJ_TBLIDX_2_IDX ptbl (first : Int))
            (SJ_TBLIDX_2_IDX ptbl (last : Int)) 1 =
            List.map (fun o : Nat => SJ_TBLIDX_2_IDX ptbl (o : Int))
              (List.range' first (last - first + 1)) := by
          simp only [SJ_TBLIDX_2_IDX, hstep1]
          exact hoff
        rw [hfin]
    · rw [if_neg hrun2]
      by_cases hrun1 : first < last
      · -- a run of exactly two entries: the N,M form
        rw [if_pos hrun1]
        have hlast1 : last = first + 1 := by omega
        rw [intChars_of_nonneg hnn2]
        simp only [List.append_assoc, List.singleton_append, List.cons_append, List.nil_append]
        rw [expandText_optComma]
        rw [expandText_single_then _ (Or.inr ⟨_, rfl⟩)]
        rw [expandText_comma]
        rw [expandText_single_then _ hT]
        rw [hn1, hn2, hIH, hlast1]
        rw [matchFrom_cons hfc, if_pos hsx]
        rw [@matchFrom_cons ptbl state (first + 1) (by omega)]
        rw [if_pos (hl3 (first + 1) (by omega) (by omega))]
        simp
      · -- a single-entry run: the bare N form
        rw [if_neg hrun1]
        have hlast0 : last = first := by omega
        simp only [List.append_assoc, List.singleton_append, List.cons_append, List.nil_append]
        rw [expandText_optComma]
        rw [expandText_single_then _ hT]
        rw [hn1, hIH]
        rw [matchFrom_cons hfc, if_pos hsx]
        rw [hlast0]
        simp

theorem matchIdx_mem (ptbl : Ajtrkhd) (state : Nat) (k : Int) :
    k ∈ matchIdx ptbl state ↔
      ∃ o : Nat, o < ptbl.tkm_ct ∧ entStatus ptbl o = state ∧
        k = SJ_TBLIDX_2_IDX ptbl (o : Int) := by
  unfold matchIdx matchFrom
  simp only [List.mem_map, List.mem_filter, List.mem_range'_1, decide_eq_true_eq]
  constructor
  · rintro ⟨o, ho, rfl⟩
    exact ⟨o, by omega, ho.2, rfl⟩
  · rintro ⟨o, h1, h2, rfl⟩
    exact ⟨o, ⟨⟨by omega, by omega⟩, h2⟩, rfl⟩

/-- When no entry matches, the formatter emits nothing at all. -/
theorem cvtGo_empty (ptbl : Ajtrkhd) (state : Nat)
    (hnone : ∀ o, o < ptbl.tkm_ct → entStatus ptbl o ≠ state) :
    ∀ (fuel first : Nat) (pcomma : Bool), cvtGo ptbl state fuel first pcomma = [] := by
  intro fuel
  induction fuel with
  | zero => intro first pcomma; rfl
  | succ fuel ih =>
    intro first pcomma
    simp only [cvtGo]
    by_cases h1 : first < ptbl.tkm_ct
    · rw [if_pos h1, if_neg (hnone first h1)]
      exact ih (first + 1) pcomma
    · rw [if_neg h1]

/-- Claim C3: for every tracking table (with the built-table invariants
0 ≤ start and 1 ≤ step) and every state s, re-parsing the text produced by
cvt_range for s -- by repeated parse_subjob_index calls, expanding each
returned (start, end, step) segment -- yields exactly the external indices
of the entries in state s, as the identical index list and hence as the
same set of indices. -/
theorem claim_C3_format_parse_roundtrip (ptbl : Ajtrkhd) (state : Nat)
    (hstart : 0 ≤ ptbl.tkm_start) (hstep : 1 ≤ ptbl.tkm_step) :
    expandText (cvt_range ptbl state) = matchIdx ptbl state ∧
    (∀ k : Int, k ∈ expandText (cvt_range ptbl state) ↔
      ∃ o : Nat, o < ptbl.tkm_ct ∧ entStatus ptbl o = state ∧
        k = SJ_TBLIDX_2_IDX ptbl (o : Int)) := by
  have h : expandText (cvt_range ptbl state) = matchIdx ptbl state :=
    cvt_expand ptbl state hstart hstep ptbl.tkm_ct 0 false (by omega)
  refine ⟨h, fun k => ?_⟩
  rw [h]
  exact matchIdx_mem ptbl state k

/-- Witness for claim C3: the spec scenario-4 table, indices 1..10 step 1
with offsets 0,1,2 expired and the rest queued; the formatter emits 4-10
for queued and 1-3 for expired, each re-parsing to the matching set. -/
theorem claim_C3_witness :
    (0 : Int) ≤ 1 ∧ (1 : Int) ≤ 1 ∧
      (expandText (cvt_range
        ⟨10, 1, 10, 1, ⟨false, false, false⟩, [0, 7, 0, 0, 0, 0, 3, 0, 0, 0],
          List.map (fun s => ⟨s, 0, false, 0, -1, false, none⟩)
            [6, 6, 6, 1, 1, 1, 1, 1, 1, 1]⟩ JOB_STATE_QUEUED) =
        matchIdx
        ⟨10, 1, 10, 1, ⟨false, false, false⟩, [0, 7, 0, 0, 0, 0, 3, 0, 0, 0],
          List.map (fun s => ⟨s, 0, false, 0, -1, false, none⟩)
            [6, 6, 6, 1, 1, 1, 1, 1, 1, 1]⟩ JOB_STATE_QUEUED) := by
  refine ⟨by decide, by decide, ?_⟩
  exact (claim_C3_format_parse_roundtrip _ JOB_STATE_QUEUED (by decide) (by decide)).1

/-- Claim C9: for a tracking table none of whose entries matches the state,
cvt_range emits the empty string, and the remaining-indices attribute update
(the only consumer, which formats the queued predicate) substitutes the
explicit sentinel "-" for it, so the stored field is never empty. -/
theorem claim_C9_empty_sentinel (parent : ParentJob) (ptbl : Ajtrkhd) (state : Nat)
    (hp : parent.ji_ajtrk = some ptbl)
    (hflag : ptbl.tkm_flags.reval_ind_remaining = true)
    (hnone : ∀ o, o < ptbl.tkm_ct → entStatus ptbl o ≠ state) :
    cvt_range ptbl state = [] ∧
    (state = JOB_STATE_QUEUED →
      (update_array_indices_remaining_attr parent).array_indices_remaining = ['-'] ∧
      (update_array_indices_remaining_attr parent).array_indices_remaining ≠ []) := by
  have hcv : cvt_range ptbl state = [] := cvtGo_empty ptbl state hnone ptbl.tkm_ct 0 false
  refine ⟨hcv, fun hq => ?_⟩
  subst hq
  unfold update_array_indices_remaining_attr
  rw [hp]
  dsimp only
  rw [if_pos hflag, hcv]
  exact ⟨rfl, by simp⟩

/-- Witness for claim C9: a two-entry table with both subjobs expired; the
queued predicate matches nothing and the attribute becomes "-". -/
theorem claim_C9_witness :
    (∀ o, o < (2 : Nat) → entStatus ⟨2, 1, 2, 1, ⟨false, false, true⟩, [0, 0, 0, 0, 0, 0, 2, 0, 0, 0], [⟨6, 0, false, 0, -1, false, none⟩, ⟨6, 0, false, 0, -1, false, none⟩]⟩ o ≠ JOB_STATE_QUEUED) ∧
    (update_array_indices_remaining_attr ⟨some ⟨2, 1, 2, 1, ⟨false, false, true⟩, [0, 0, 0, 0, 0, 0, 2, 0, 0, 0], [⟨6, 0, false, 0, -1, false, none⟩, ⟨6, 0, false, 0, -1, false, none⟩]⟩, 0, false, true, [], 0, 0⟩).array_indices_remaining = ['-'] := by
  refine ⟨by decide, ?_⟩
  exact ((claim_C9_empty_sentinel ⟨some ⟨2, 1, 2, 1, ⟨false, false, true⟩, [0, 0, 0, 0, 0, 0, 2, 0, 0, 0], [⟨6, 0, false, 0, -1, false, none⟩, ⟨6, 0, false, 0, -1, false, none⟩]⟩, 0, false, true, [], 0, 0⟩ ⟨2, 1, 2, 1, ⟨false, false, true⟩, [0, 0, 0, 0, 0, 0, 2, 0, 0, 0], [⟨6, 0, false, 0, -1, false, none⟩, ⟨6, 0, false, 0, -1, false, none⟩]⟩
    JOB_STATE_QUEUED rfl rfl (by decide)).2 rfl).1

/-! ## Histogram bookkeeping (set_subjob_tblstate) -/

theorem filter_set_count (p : Ajtrk → Bool) : ∀ (l : List Ajtrk) (i : Nat) (e ent : Ajtrk),
    l.get? i = some ent →
    ((l.set i e).filter p).length + (if p ent then 1 else 0) =
      (l.filter p).length + (if p e then 1 else 0) := by
  intro l
  induction l with
  | nil =>
    intro i e ent h
    simp at h
  | cons a t ih =>
    intro i e ent h
    cases i with
    | zero =>
      have ha : a = ent := by
        simpa using h
      subst ha
      simp only [List.set_cons_zero, List.filter_cons]
      by_cases hpa : p a
      · by_cases hpe : p e
        · simp [hpa, hpe]
        · simp [hpa, hpe, Nat.add_comm]
      · by_cases hpe : p e
        · simp [hpa, hpe, Nat.add_comm]
        · simp [hpa, hpe]
    | succ i =>
      have ht : t.get? i = some ent := by
        simpa using h
      have key := ih i e ent ht
      simp only [List.set_cons_succ, List.filter_cons]
      by_cases hpa : p a
      · simp only [hpa, if_true, List.length_cons]
        omega
      · simp only [hpa, if_false]
        exact key

theorem getD_set_self {h : List Int} {s : Nat} {v : Int} (hs : s < h.length) :
    (h.set s v).getD s 0 = v := by
  rw [List.getD_eq_getElem?_getD, List.getElem?_set_self (by omega)]
  rfl

theorem getD_set_other {h : List Int} {s s2 : Nat} {v : Int} (hne : s ≠ s2) :
    (h.set s v).getD s2 0 = h.getD s2 0 := by
  rw [List.getD_eq_getElem?_getD, List.getElem?_set_ne hne, ← List.getD_eq_getElem?_getD]

theorem histAdd_self {h : List Int} {s : Nat} {d : Int} (hs : s < h.length) :
    (histAdd h s d).getD s 0 = h.getD s 0 + d :=
  getD_set_self hs

theorem histAdd_other {h : List Int} {s s2 : Nat} {d : Int} (hne : s ≠ s2) :
    (histAdd h s d).getD s2 0 = h.getD s2 0 :=
  getD_set_other hne

theorem histAdd_length (h : List Int) (s : Nat) (d : Int) :
    (histAdd h s d).length = h.length :=
  List.length_set h s _

/-- countState through a single entry state change. -/
theorem countState_set {l : List Ajtrk} {i : Nat} {ent : Ajtrk} {ns : Nat}
    (h : l.get? i = some ent) (s : Nat) :
    countState (l.set i { ent with trk_status := ns }) s =
      countState l s + (if ns = s then 1 else 0) - (if ent.trk_status = s then 1 else 0) := by
  have key := filter_set_count (fun e => e.trk_status = s) l i { ent with trk_status := ns } ent h
  dsimp only at key
  simp only [decide_eq_true_eq] at key
  unfold countState
  by_cases h1 : ent.trk_status = s
  · rw [if_pos h1] at key
    by_cases h2 : ns = s
    · rw [if_pos h2] at key
      rw [if_pos h2, if_pos h1]
      omega
    · rw [if_neg h2] at key
      rw [if_neg h2, if_pos h1]
      omega
  · rw [if_neg h1] at key
    by_cases h2 : ns = s
    · rw [if_pos h2] at key
      rw [if_pos h2, if_neg h1]
      omega
    · rw [if_neg h2] at key
      rw [if_neg h2, if_neg h1]
      omega

theorem get?_lt {l : List Ajtrk} {n : Nat} {a : Ajtrk} (h : l.get? n = some a) :
    n < l.length :=
  (List.get?_eq_some.mp h).1

/-- Unfolding of set_subjob_tblstate on a genuine state change. -/
theorem set_tblstate_eq {ptbl : Ajtrkhd} {off : Int} {ns : Nat} {ent : Ajtrk}
    (hoff : 0 ≤ off) (hget : ptbl.tkm_tbl.get? off.toNat = some ent)
    (hne : ent.trk_status ≠ ns) :
    set_subjob_tblstate ptbl off ns =
      { ptbl with
        tkm_tbl := ptbl.tkm_tbl.set off.toNat { ent with trk_status := ns }
        tkm_subjsct := histAdd (histAdd ptbl.tkm_subjsct ent.trk_status (-1)) ns 1
        tkm_flags := { ptbl.tkm_flags with reval_ind_remaining := true } } := by
  unfold set_subjob_tblstate
  rw [if_neg (by omega), hget]
  dsimp only
  rw [if_neg hne]

/-- set_subjob_tblstate preserves the histogram invariant and
well-formedness, for every offset (including -1 and out of range). -/
theorem set_tblstate_pres {ptbl : Ajtrkhd} (off : Int) {ns : Nat}
    (hns : ns < PBS_NUMJOBSTATE) (hinv : histInv ptbl) (hwf : histWF ptbl) :
    histInv (set_subjob_tblstate ptbl off ns) ∧ histWF (set_subjob_tblstate ptbl off ns) := by
  unfold set_subjob_tblstate
  by_cases h0 : off = -1
  · rw [if_pos h0]
    exact ⟨hinv, hwf⟩
  rw [if_neg h0]
  cases hget : ptbl.tkm_tbl.get? off.toNat with
  | none => exact ⟨hinv, hwf⟩
  | some ent =>
    dsimp only
    by_cases heq : ent.trk_status = ns
    · rw [if_pos heq]
      exact ⟨hinv, hwf⟩
    rw [if_neg heq]
    have hold : ent.trk_status < PBS_NUMJOBSTATE := hwf.2 ent (List.get?_mem hget)
    have hlen : ptbl.tkm_subjsct.length = PBS_NUMJOBSTATE := hwf.1
    constructor
    · intro s hs
      show (histAdd (histAdd ptbl.tkm_subjsct ent.trk_status (-1)) ns 1).getD s 0 = _
      have hcount := @countState_set ptbl.tkm_tbl off.toNat ent ns hget s
      by_cases hsn : s = ns
      · subst hsn
        rw [histAdd_self (by rw [histAdd_length]; omega)]
        rw [histAdd_other heq]
        rw [hcount, if_pos rfl, if_neg heq]
        have := hinv s hs
        unfold histGet at this
        omega
      · rw [histAdd_other (fun hx => hsn hx.symm)]
        by_cases hso : s = ent.trk_status
        · rw [hso, histAdd_self (by omega)]
          have hcount2 := @countState_set ptbl.tkm_tbl off.toNat ent ns hget ent.trk_status
          rw [hcount2, if_neg (fun hx => heq hx.symm), if_pos rfl]
          have hbase := hinv ent.trk_status hold
          unfold histGet at hbase
          omega
        · rw [histAdd_other (fun hx => hso hx.symm)]
          rw [hcount, if_neg (fun hx => hsn hx.symm), if_neg (fun hx => hso hx.symm)]
          have := hinv s hs
          unfold histGet at this
          omega
    · constructor
      · show (histAdd (histAdd ptbl.tkm_subjsct ent.trk_status (-1)) ns 1).length = _
        rw [histAdd_length, histAdd_length]
        exact hlen
      · intro e he
        rcases List.mem_or_eq_of_mem_set he with hmem | rfl
        · exact hwf.2 e hmem
        · exact hns

/-- A whole sequence of set_subjob_tblstate calls preserves the invariant. -/
theorem applyOps_pres : ∀ (ops : List (Int × Nat)) (ptbl : Ajtrkhd),
    (∀ p ∈ ops, p.2 < PBS_NUMJOBSTATE) → histInv ptbl → histWF ptbl →
    histInv (applyOps ptbl ops) ∧ histWF (applyOps ptbl ops) := by
  intro ops
  induction ops with
  | nil => intro ptbl hops hinv hwf; exact ⟨hinv, hwf⟩
  | cons p rest ih =>
    intro ptbl hops hinv hwf
    have hstep := set_tblstate_pres p.1 (hops p (List.mem_cons_self p rest)) hinv hwf
    exact ih (set_subjob_tblstate ptbl p.1 p.2)
      (fun q hq => hops q (List.mem_cons_of_mem p hq)) hstep.1 hstep.2

/-! ## Construction (mk_subjob_index_tbl) -/

theorem mk_inv {range : List Char} {ist : Nat} {mode : AtrAction} {lim : Option Int}
    {tbl : Ajtrkhd} (h : mk_subjob_index_tbl range ist mode lim = Except.ok tbl) :
    ∃ ep start endv step count,
      parse_subjob_index range = ParseRes.ok ep start endv step count ∧
      ¬((mode = AtrAction.NEW ∨ mode = AtrAction.ALTER) ∧
        count > lim.getD PBS_MAX_ARRAY_JOB_DFL) ∧
      tbl = ⟨count.toNat, start, endv, step, ⟨false, false, false⟩,
        (List.range PBS_NUMJOBSTATE).map (fun s => if s = JOB_STATE_QUEUED then count else 0),
        (segIndices start endv step).map (fun _ => freshEntry ist)⟩ := by
  unfold mk_subjob_index_tbl at h
  cases hp : parse_subjob_index range with
  | done ep => rw [hp] at h; exact Except.noConfusion h
  | err => rw [hp] at h; exact Except.noConfusion h
  | ok ep start endv step count =>
    rw [hp] at h
    dsimp only at h
    split at h
    · exact Except.noConfusion h
    next hcond =>
      simp only [Except.ok.injEq] at h
      exact ⟨ep, start, endv, step, count, rfl, hcond, h.symm⟩

theorem range_map_getD {f : Nat → Int} {s n : Nat} (hs : s < n) :
    (((List.range n).map f).getD s 0) = f s := by
  rw [List.getD_eq_getElem?_getD, List.getElem?_map]
  rw [List.getElem?_range hs]
  rfl

theorem countState_const {ist : Nat} : ∀ (l : List Int) (s : Nat),
    countState (l.map (fun _ => freshEntry ist)) s =
      if ist = s then (l.length : Int) else 0 := by
  intro l
  induction l with
  | nil => intro s; simp [countState]
  | cons a t ih =>
    intro s
    have iht := ih s
    unfold countState at iht ⊢
    simp only [List.map_cons, List.filter_cons]
    by_cases hs : ist = s
    · rw [if_pos (by simp [freshEntry, hs])]
      rw [if_pos hs] at iht
      rw [if_pos hs]
      simp only [List.length_cons]
      push_cast
      omega
    · rw [if_neg (by simp [freshEntry, hs])]
      rw [if_neg hs] at iht
      rw [iht, if_neg hs]

/-- Everything claim C5 and the freshness part of C1 need about a table the
constructor returns. -/
theorem mk_facts {range : List Char} {ist : Nat} {mode : AtrAction} {lim : Option Int}
    {tbl : Ajtrkhd} (h : mk_subjob_index_tbl range ist mode lim = Except.ok tbl) :
    tbl.tkm_tbl.length = tbl.tkm_ct ∧
    (∀ e ∈ tbl.tkm_tbl, e = freshEntry ist) ∧
    histGet tbl JOB_STATE_QUEUED = (tbl.tkm_ct : Int) ∧
    (∀ s, s < PBS_NUMJOBSTATE → s ≠ JOB_STATE_QUEUED → histGet tbl s = 0) ∧
    0 ≤ tbl.tkm_start ∧ 1 ≤ tbl.tkm_step ∧ 1 ≤ tbl.tkm_ct ∧
    tbl.tkm_subjsct.length = PBS_NUMJOBSTATE := by
  obtain ⟨ep, start, endv, step, count, hp, hcond, htbl⟩ := mk_inv h
  obtain ⟨hlen, hs0, hse, hst, hc⟩ := parse_ok_inv hp
  have hcpos : 1 ≤ count := by
    rw [hc]
    exact rangeCount_pos hst hse
  have hseglen : (segIndices start endv step).length = count.toNat := by
    rw [hc]
    exact segIndices_length hst (endv - start).toNat start endv (Nat.le_refl _) hse
  subst htbl
  refine ⟨?_, ?_, ?_, ?_, hs0, hst, by dsimp only; omega, ?_⟩
  · simp only [List.length_map]
    exact hseglen
  · intro e he
    simp only [List.mem_map] at he
    obtain ⟨x, hx, rfl⟩ := he
    rfl
  · unfold histGet
    rw [range_map_getD (by decide), if_pos rfl]
    show count = ((count.toNat : Nat) : Int)
    omega
  · intro s hs hsq
    unfold histGet
    rw [range_map_getD hs, if_neg hsq]
  · simp

/-- A table built with the queued initial state satisfies the histogram
invariant and well-formedness from birth. -/
theorem mk_fresh {range : List Char} {mode : AtrAction} {lim : Option Int} {tbl : Ajtrkhd}
    (h : mk_subjob_index_tbl range JOB_STATE_QUEUED mode lim = Except.ok tbl) :
    histInv tbl ∧ histWF tbl := by
  obtain ⟨hlen, hfresh, hq, hz, hs0, hst, hct, hhl⟩ := mk_facts h
  obtain ⟨ep, start, endv, step, count, hp, hcond, htbl⟩ := mk_inv h
  constructor
  · intro s hs
    have hcs : countState tbl.tkm_tbl s =
        if JOB_STATE_QUEUED = s then (tbl.tkm_tbl.length : Int) else 0 := by
      conv_lhs => rw [htbl]
      rw [countState_const]
      rw [htbl]
      simp
    by_cases hsq : s = JOB_STATE_QUEUED
    · subst hsq
      rw [hq, hcs, if_pos rfl, hlen]
    · rw [hz s hs hsq, hcs, if_neg (fun hx => hsq hx.symm)]
  · refine ⟨hhl, fun e he => ?_⟩
    rw [hfresh e he]
    decide

/-- The full effect of one genuine state change: old counter down, new
counter up, the entry restated, everything else untouched. -/
theorem set_tblstate_effect {t : Ajtrkhd} {off ns : Nat} {ent : Ajtrk}
    (hinv : histInv t) (hwf : histWF t) (hns : ns < PBS_NUMJOBSTATE)
    (hget : t.tkm_tbl.get? off = some ent) (hne : ent.trk_status ≠ ns) :
    histGet (set_subjob_tblstate t (off : Int) ns) ns = histGet t ns + 1 ∧
    histGet (set_subjob_tblstate t (off : Int) ns) ent.trk_status =
      histGet t ent.trk_status - 1 ∧
    (∀ s, s ≠ ns → s ≠ ent.trk_status →
      histGet (set_subjob_tblstate t (off : Int) ns) s = histGet t s) ∧
    (set_subjob_tblstate t (off : Int) ns).tkm_tbl.get? off =
      some { ent with trk_status := ns } ∧
    (∀ j, j ≠ off → (set_subjob_tblstate t (off : Int) ns).tkm_tbl.get? j =
      t.tkm_tbl.get? j) ∧
    histInv (set_subjob_tblstate t (off : Int) ns) := by
  have hget2 : t.tkm_tbl.get? ((off : Int)).toNat = some ent := by
    rw [Int.toNat_natCast]
    exact hget
  have heq := set_tblstate_eq (Int.natCast_nonneg off) hget2 hne
  have hold : ent.trk_status < PBS_NUMJOBSTATE := hwf.2 ent (List.get?_mem hget)
  have hlen : t.tkm_subjsct.length = PBS_NUMJOBSTATE := hwf.1
  have hoffl : off < t.tkm_tbl.length := get?_lt hget
  have hpres := (set_tblstate_pres (off : Int) hns hinv hwf).1
  refine ⟨?_, ?_, ?_, ?_, ?_, hpres⟩
  · rw [heq]
    unfold histGet
    dsimp only
    rw [histAdd_self (by rw [histAdd_length]; omega)]
    rw [histAdd_other hne]
  · rw [heq]
    unfold histGet
    dsimp only
    rw [histAdd_other (fun hx => hne hx.symm)]
    rw [histAdd_self (by omega)]
    omega
  · intro s hsn hso
    rw [heq]
    unfold histGet
    dsimp only
    rw [histAdd_other (fun hx => hsn hx.symm)]
    rw [histAdd_other (fun hx => hso hx.symm)]
  · rw [heq]
    dsimp only
    rw [Int.toNat_natCast, List.get?_eq_getElem?, List.getElem?_set_self hoffl]
  · intro j hj
    rw [heq]
    dsimp only
    rw [Int.toNat_natCast, List.get?_eq_getElem?, List.getElem?_set_ne (fun hx => hj hx.symm),
      ← List.get?_eq_getElem?]

/-- Claim C1: starting from a freshly built tracking table (the constructor
is always invoked with the queued initial state, array_func.c line 719),
after any sequence of set_subjob_tblstate calls every histogram counter
equals the number of entries in that state; and one further
set_subjob_tblstate on a valid offset with a new state different from the
entry current state decrements the old state counter, increments the new
state counter, rewrites exactly that entry, leaves every other entry and
every other counter unchanged, and keeps the invariant. -/
theorem claim_C1_histogram_invariant (range : List Char) (mode : AtrAction) (lim : Option Int)
    (tbl : Ajtrkhd) (hmk : mk_subjob_index_tbl range JOB_STATE_QUEUED mode lim = Except.ok tbl)
    (ops : List (Int × Nat)) (hops : ∀ p ∈ ops, p.2 < PBS_NUMJOBSTATE) :
    histInv (applyOps tbl ops) ∧
    (∀ (off ns : Nat) (ent : Ajtrk), ns < PBS_NUMJOBSTATE →
      (applyOps tbl ops).tkm_tbl.get? off = some ent → ent.trk_status ≠ ns →
      histGet (set_subjob_tblstate (applyOps tbl ops) (off : Int) ns) ns =
        histGet (applyOps tbl ops) ns + 1 ∧
      histGet (set_subjob_tblstate (applyOps tbl ops) (off : Int) ns) ent.trk_status =
        histGet (applyOps tbl ops) ent.trk_status - 1 ∧
      (∀ s, s ≠ ns → s ≠ ent.trk_status →
        histGet (set_subjob_tblstate (applyOps tbl ops) (off : Int) ns) s =
          histGet (applyOps tbl ops) s) ∧
      (set_subjob_tblstate (applyOps tbl ops) (off : Int) ns).tkm_tbl.get? off =
        some { ent with trk_status := ns } ∧
      (∀ j, j ≠ off → (set_subjob_tblstate (applyOps tbl ops) (off : Int) ns).tkm_tbl.get? j =
        (applyOps tbl ops).tkm_tbl.get? j) ∧
      histInv (set_subjob_tblstate (applyOps tbl ops) (off : Int) ns)) := by
  have hfresh := mk_fresh hmk
  have hpres := applyOps_pres ops tbl hops hfresh.1 hfresh.2
  refine ⟨hpres.1, fun off ns ent hns hget hne => ?_⟩
  exact set_tblstate_effect hpres.1 hpres.2 hns hget hne

/-- Witness for claim C1: the three-subjob array 1-3, with offset 0 set
running; the invariant holds in the reached state. -/
theorem claim_C1_witness :
    mk_subjob_index_tbl ['1', '-', '3'] JOB_STATE_QUEUED AtrAction.NEW none =
      Except.ok ⟨3, 1, 3, 1, ⟨false, false, false⟩, [0, 3, 0, 0, 0, 0, 0, 0, 0, 0],
        [⟨1, 0, false, 0, -1, false, none⟩, ⟨1, 0, false, 0, -1, false, none⟩,
          ⟨1, 0, false, 0, -1, false, none⟩]⟩ ∧
    (∀ p ∈ [((0 : Int), 4)], p.2 < PBS_NUMJOBSTATE) ∧
    histInv (applyOps ⟨3, 1, 3, 1, ⟨false, false, false⟩, [0, 3, 0, 0, 0, 0, 0, 0, 0, 0],
        [⟨1, 0, false, 0, -1, false, none⟩, ⟨1, 0, false, 0, -1, false, none⟩,
          ⟨1, 0, false, 0, -1, false, none⟩]⟩ [((0 : Int), 4)]) := by
  refine ⟨by rfl, by decide, ?_⟩
  exact (claim_C1_histogram_invariant ['1', '-', '3'] AtrAction.NEW none _ (by rfl)
    [((0 : Int), 4)] (by decide)).1

/-! ## Claims C5 and C7: construction success shape and the size limit -/

/-- Counterexample to claim C5 as stated: a successful build from range 1-2
with the expired initial state leaves every entry expired, yet the histogram
counter of the initial state is 0, not count = 2 -- the constructor
hard-codes tkm_subjsct[JOB_STATE_QUEUED] = count (array_func.c line 677)
regardless of the initial state. -/
theorem claim_C5_counterexample :
    mk_subjob_index_tbl ['1', '-', '2'] JOB_STATE_EXPIRED AtrAction.NEW none =
      Except.ok ⟨2, 1, 2, 1, ⟨false, false, false⟩, [0, 2, 0, 0, 0, 0, 0, 0, 0, 0],
        [⟨6, 0, false, 0, -1, false, none⟩, ⟨6, 0, false, 0, -1, false, none⟩]⟩ ∧
    ¬ (histGet ⟨2, 1, 2, 1, ⟨false, false, false⟩, [0, 2, 0, 0, 0, 0, 0, 0, 0, 0],
        [⟨6, 0, false, 0, -1, false, none⟩, ⟨6, 0, false, 0, -1, false, none⟩]⟩
      JOB_STATE_EXPIRED = 2) ∧
    histGet ⟨2, 1, 2, 1, ⟨false, false, false⟩, [0, 2, 0, 0, 0, 0, 0, 0, 0, 0],
        [⟨6, 0, false, 0, -1, false, none⟩, ⟨6, 0, false, 0, -1, false, none⟩]⟩
      JOB_STATE_QUEUED = 2 :=
  ⟨rfl, by decide, by decide⟩

/-- Claim C5 (amended): a successful build returns count entries all in the
given initial state, with histogram[JOB_STATE_QUEUED] = count and every
other counter 0; hence when the initial state is Queued -- the only initial
state the code ever passes (array_func.c line 719) -- the histogram counter
of the initial state is count and every other state counter is 0. -/
theorem claim_C5_build_shape (range : List Char) (ist : Nat) (mode : AtrAction)
    (lim : Option Int) (tbl : Ajtrkhd)
    (hmk : mk_subjob_index_tbl range ist mode lim = Except.ok tbl) :
    (∃ ep start endv step count, parse_subjob_index range = ParseRes.ok ep start endv step count ∧
      tbl.tkm_ct = count.toNat ∧ count = rangeCount start endv step) ∧
    tbl.tkm_tbl.length = tbl.tkm_ct ∧
    (∀ e ∈ tbl.tkm_tbl, e = freshEntry ist) ∧
    histGet tbl JOB_STATE_QUEUED = (tbl.tkm_ct : Int) ∧
    (∀ s, s < PBS_NUMJOBSTATE → s ≠ JOB_STATE_QUEUED → histGet tbl s = 0) ∧
    (ist = JOB_STATE_QUEUED →
      histGet tbl ist = (tbl.tkm_ct : Int) ∧
      (∀ s, s < PBS_NUMJOBSTATE → s ≠ ist → histGet tbl s = 0)) := by
  obtain ⟨hlen, hfresh, hq, hz, hs0, hst, hct, hhl⟩ := mk_facts hmk
  obtain ⟨ep, start, endv, step, count, hp, hcond, htbl⟩ := mk_inv hmk
  obtain ⟨hlen2, hs02, hse, hst2, hc⟩ := parse_ok_inv hp
  refine ⟨⟨ep, start, endv, step, count, hp, ?_, hc⟩, hlen, hfresh, hq, hz, fun hq2 => ?_⟩
  · rw [htbl]
  · subst hq2
    exact ⟨hq, hz⟩

/-- Witness for claim C5 (amended): the spec scenario Build 1-10 Queued:
count 10, histogram Queued 10, all others 0. -/
theorem claim_C5_witness :
    mk_subjob_index_tbl ['1', '-', '1', '0'] JOB_STATE_QUEUED AtrAction.NEW none =
      Except.ok ⟨10, 1, 10, 1, ⟨false, false, false⟩, [0, 10, 0, 0, 0, 0, 0, 0, 0, 0],
        List.map (fun _ => freshEntry JOB_STATE_QUEUED) (segIndices 1 10 1)⟩ ∧
    histGet ⟨10, 1, 10, 1, ⟨false, false, false⟩, [0, 10, 0, 0, 0, 0, 0, 0, 0, 0],
        List.map (fun _ => freshEntry JOB_STATE_QUEUED) (segIndices 1 10 1)⟩
      JOB_STATE_QUEUED = (10 : Int) := by
  refine ⟨by rfl, ?_⟩
  have h := (claim_C5_build_shape ['1', '-', '1', '0'] JOB_STATE_QUEUED AtrAction.NEW none
    ⟨10, 1, 10, 1, ⟨false, false, false⟩, [0, 10, 0, 0, 0, 0, 0, 0, 0, 0],
      List.map (fun _ => freshEntry JOB_STATE_QUEUED) (segIndices 1 10 1)⟩ (by rfl)).2.2.2.1
  exact h

/-- Claim C7: the too-large rejection happens exactly for a parsed count
above the effective limit in the NEW or ALTER modes; on recovery the limit
is never consulted, so every parseable range builds. -/
theorem claim_C7_limit_modes (range : List Char) (ist : Nat) (mode : AtrAction)
    (lim : Option Int) :
    (mk_subjob_index_tbl range ist mode lim = Except.error PBSError.PBSE_MaxArraySize ↔
      ((mode = AtrAction.NEW ∨ mode = AtrAction.ALTER) ∧
        ∃ ep start endv step count,
          parse_subjob_index range = ParseRes.ok ep start endv step count ∧
          count > lim.getD PBS_MAX_ARRAY_JOB_DFL)) ∧
    (mode = AtrAction.RECOV →
      ∀ ep start endv step count,
        parse_subjob_index range = ParseRes.ok ep start endv step count →
        ∃ tbl, mk_subjob_index_tbl range ist AtrAction.RECOV lim = Except.ok tbl ∧
          tbl.tkm_ct = count.toNat) := by
  constructor
  · constructor
    · intro h
      unfold mk_subjob_index_tbl at h
      cases hp : parse_subjob_index range with
      | done ep =>
        rw [hp] at h
        simp at h
      | err =>
        rw [hp] at h
        simp at h
      | ok ep start endv step count =>
        rw [hp] at h
        dsimp only at h
        split at h
        next hcond => exact ⟨hcond.1, ep, start, endv, step, count, rfl, hcond.2⟩
        next hcond => exact absurd h (by simp)
    · rintro ⟨hmode, ep, start, endv, step, count, hp, hbig⟩
      unfold mk_subjob_index_tbl
      rw [hp]
      dsimp only
      rw [if_pos ⟨hmode, hbig⟩]
  · rintro rfl
    intro ep start endv step count hp
    refine ⟨⟨count.toNat, start, endv, step, ⟨false, false, false⟩,
      (List.range PBS_NUMJOBSTATE).map (fun s => if s = JOB_STATE_QUEUED then count else 0),
      (segIndices start endv step).map (fun _ => freshEntry ist)⟩, ?_, rfl⟩
    unfold mk_subjob_index_tbl
    rw [hp]
    dsimp only
    rw [if_neg (by simp)]

/-- Witness for claim C7: the range 1-20001 is over the default limit of
10000: creation rejects it with the too-large error while recovery builds
the full 20001-entry table. -/
theorem claim_C7_witness :
    parse_subjob_index ['1', '-', '2', '0', '0', '0', '1'] = ParseRes.ok [] 1 20001 1 20001 ∧
    mk_subjob_index_tbl ['1', '-', '2', '0', '0', '0', '1'] JOB_STATE_QUEUED AtrAction.NEW none =
      Except.error PBSError.PBSE_MaxArraySize ∧
    (∃ tbl, mk_subjob_index_tbl ['1', '-', '2', '0', '0', '0', '1'] JOB_STATE_QUEUED
      AtrAction.RECOV none = Except.ok tbl ∧ tbl.tkm_ct = 20001) := by
  have hp : parse_subjob_index ['1', '-', '2', '0', '0', '0', '1'] =
      ParseRes.ok [] 1 20001 1 20001 := by decide
  refine ⟨hp, ?_, ?_⟩
  · exact (claim_C7_limit_modes ['1', '-', '2', '0', '0', '0', '1'] JOB_STATE_QUEUED
      AtrAction.NEW none).1.mpr ⟨Or.inl rfl, [], 1, 20001, 1, 20001, hp, by decide⟩
  · have h := (claim_C7_limit_modes ['1', '-', '2', '0', '0', '0', '1'] JOB_STATE_QUEUED
      AtrAction.RECOV none).2 rfl [] 1 20001 1 20001 hp
    obtain ⟨tbl, htbl, hct⟩ := h
    exact ⟨tbl, htbl, by rw [hct]; rfl⟩

/-! ## Claim C4: the index/offset mapper -/

/-- Claim C4: over any table with a positive step, every in-range on-grid
external index maps to offset (i - start) / step and back to itself; every
off-range or off-grid index maps to -1; and the mapper never returns a
wrong offset: the result is always -1 or a non-negative offset whose
recomputed external index is the input. -/
theorem claim_C4_offset_bijection (ptbl : Ajtrkhd) (hstep : 1 ≤ ptbl.tkm_step) :
    (∀ i : Int, ptbl.tkm_start ≤ i → i ≤ ptbl.tkm_end →
      (i - ptbl.tkm_start) % ptbl.tkm_step = 0 →
      numindex_to_offset ptbl i = (i - ptbl.tkm_start) / ptbl.tkm_step ∧
      SJ_TBLIDX_2_IDX ptbl ((i - ptbl.tkm_start) / ptbl.tkm_step) = i) ∧
    (∀ i : Int, (i < ptbl.tkm_start ∨ ptbl.tkm_end < i ∨
        (i - ptbl.tkm_start) % ptbl.tkm_step ≠ 0) →
      numindex_to_offset ptbl i = -1) ∧
    (∀ i : Int, numindex_to_offset ptbl i = -1 ∨
      (0 ≤ numindex_to_offset ptbl i ∧
        SJ_TBLIDX_2_IDX ptbl (numindex_to_offset ptbl i) = i)) := by
  have hrt : ∀ i : Int, (i - ptbl.tkm_start) % ptbl.tkm_step = 0 →
      SJ_TBLIDX_2_IDX ptbl ((i - ptbl.tkm_start) / ptbl.tkm_step) = i := by
    intro i hmod
    unfold SJ_TBLIDX_2_IDX
    have hdvd : ptbl.tkm_step ∣ (i - ptbl.tkm_start) := Int.dvd_of_emod_eq_zero hmod
    rw [Int.ediv_mul_cancel hdvd]
    ring
  refine ⟨fun i h1 h2 hmod => ?_, fun i h => ?_, fun i => ?_⟩
  · refine ⟨?_, hrt i hmod⟩
    unfold numindex_to_offset
    rw [if_neg (by push_neg; exact ⟨hmod, h1, h2⟩)]
    dsimp only
    rw [if_neg (not_not_intro (hrt i hmod))]
  · unfold numindex_to_offset
    rcases h with h | h | h
    · rw [if_pos (Or.inr (Or.inl (by omega)))]
    · rw [if_pos (Or.inr (Or.inr (by omega)))]
    · rw [if_pos (Or.inl h)]
  · by_cases hg : (i - ptbl.tkm_start) % ptbl.tkm_step ≠ 0 ∨ ptbl.tkm_start > i ∨
        i > ptbl.tkm_end
    · left
      unfold numindex_to_offset
      rw [if_pos hg]
    · right
      push_neg at hg
      obtain ⟨hmod, h1, h2⟩ := hg
      have heq : numindex_to_offset ptbl i = (i - ptbl.tkm_start) / ptbl.tkm_step := by
        unfold numindex_to_offset
        rw [if_neg (by push_neg; exact ⟨hmod, h1, h2⟩)]
        dsimp only
        rw [if_neg (not_not_intro (hrt i hmod))]
      rw [heq]
      exact ⟨Int.ediv_nonneg (by omega) (by omega), hrt i hmod⟩

/-- Witness for claim C4: the 1-10:3 table; index 7 is offset 2 and maps
back, index 8 is off grid and index 11 out of range, both -1. -/
theorem claim_C4_witness :
    (1 : Int) ≤ 3 ∧
    numindex_to_offset ⟨4, 1, 10, 3, ⟨false, false, false⟩, [0, 4, 0, 0, 0, 0, 0, 0, 0, 0],
      List.map (fun _ => freshEntry JOB_STATE_QUEUED) (segIndices 1 10 3)⟩ 7 = 2 ∧
    numindex_to_offset ⟨4, 1, 10, 3, ⟨false, false, false⟩, [0, 4, 0, 0, 0, 0, 0, 0, 0, 0],
      List.map (fun _ => freshEntry JOB_STATE_QUEUED) (segIndices 1 10 3)⟩ 8 = -1 := by
  refine ⟨by decide, ?_, ?_⟩
  · have h := (claim_C4_offset_bijection ⟨4, 1, 10, 3, ⟨false, false, false⟩,
      [0, 4, 0, 0, 0, 0, 0, 0, 0, 0],
      List.map (fun _ => freshEntry JOB_STATE_QUEUED) (segIndices 1 10 3)⟩ (by decide)).1
      7 (by decide) (by decide) (by decide)
    rw [h.1]
    decide
  · exact (claim_C4_offset_bijection ⟨4, 1, 10, 3, ⟨false, false, false⟩,
      [0, 4, 0, 0, 0, 0, 0, 0, 0, 0],
      List.map (fun _ => freshEntry JOB_STATE_QUEUED) (segIndices 1 10 3)⟩ (by decide)).2.1
      8 (Or.inr (Or.inr (by decide)))

/-! ## Claim C8: parser validation rules -/

/-- Claim C8: the dash form X-Y (with or without :Z) is rejected whenever
X >= Y -- so 5-2 is rejected and X-X is never valid through the dash form --
and whenever Z < 1; the no-dash single-value forms X and X, succeed with
end = start and step = 1 (count 1); and every success reports
count = ((end - start) + step) / step. -/
theorem claim_C8_parse_validation (x y z : Nat) (r : List Char) :
    (y ≤ x → parse_subjob_index (natDigits x ++ '-' :: natDigits y) = ParseRes.err) ∧
    (y ≤ x ∨ z = 0 →
      parse_subjob_index (natDigits x ++ '-' :: (natDigits y ++ ':' :: natDigits z)) =
        ParseRes.err) ∧
    parse_subjob_index (natDigits x) = ParseRes.ok [] (x : Int) (x : Int) 1 1 ∧
    parse_subjob_index (natDigits x ++ ',' :: r) = ParseRes.ok r (x : Int) (x : Int) 1 1 ∧
    (∀ (s ep : List Char) (a b st c : Int), parse_subjob_index s = ParseRes.ok ep a b st c →
      c = (b - a + st) / st) := by
  refine ⟨fun hyx => ?_, fun hcond => ?_, parse_single_nil x, parse_single_comma x r,
    fun s ep a b st c hp => (parse_ok_inv hp).2.2.2.2⟩
  · have h := parse_dash_form x y (Or.inl rfl)
    rw [List.append_nil] at h
    rw [h, if_pos (Or.inl (by exact_mod_cast hyx))]
  · have h := parse_dash_step_form x y z (Or.inl rfl)
    rw [List.append_nil] at h
    rw [h, if_pos ?_]
    rcases hcond with hyx | hz0
    · exact Or.inl (by exact_mod_cast hyx)
    · subst hz0
      exact Or.inr (by decide)

/-- Witness for claim C8: 5-2 and 5-2:0 and 3-3 are rejected, 7 and 7,9
are single-value successes. -/
theorem claim_C8_witness :
    parse_subjob_index (natDigits 5 ++ '-' :: natDigits 2) = ParseRes.err ∧
    parse_subjob_index (natDigits 5 ++ '-' :: (natDigits 2 ++ ':' :: natDigits 0)) =
      ParseRes.err ∧
    parse_subjob_index (natDigits 3 ++ '-' :: natDigits 3) = ParseRes.err ∧
    parse_subjob_index (natDigits 7) = ParseRes.ok [] 7 7 1 1 ∧
    parse_subjob_index (natDigits 7 ++ ',' :: ['9']) = ParseRes.ok ['9'] 7 7 1 1 := by
  refine ⟨(claim_C8_parse_validation 5 2 0 []).1 (by decide),
    (claim_C8_parse_validation 5 2 0 []).2.1 (Or.inl (by decide)),
    (claim_C8_parse_validation 3 3 0 []).1 (by decide),
    (claim_C8_parse_validation 7 0 0 []).2.2.1,
    (claim_C8_parse_validation 7 0 0 ['9']).2.2.2.1⟩

/-! ## Claim C2: doneness, aggregate exit status, finalize-once latch -/

/-- The aggregate-exit scan computed in closed form: 2 as soon as any entry
recorded a negative error, else 1 if any entry recorded a positive error or
the accumulator was already 1, else the accumulator. -/
theorem scanErr_char : ∀ (l : List Ajtrk) (e : Int), e = 0 ∨ e = 1 →
    scanErr e l = if ∃ t ∈ l, t.trk_error < 0 then 2
      else if (∃ t ∈ l, t.trk_error > 0) ∨ e = 1 then 1 else e := by
  intro l
  induction l with
  | nil =>
    intro e he
    simp only [scanErr, List.not_mem_nil, false_and, exists_false, if_false, false_or]
    rcases he with rfl | rfl
    · rw [if_neg (by omega)]
    · rw [if_pos rfl]
  | cons t rest ih =>
    intro e he
    simp only [scanErr, List.exists_mem_cons_iff]
    by_cases h1 : t.trk_error > 0
    · rw [if_pos h1, ih 1 (Or.inr rfl)]
      have h2 : ¬ t.trk_error < 0 := by omega
      by_cases hneg : ∃ u ∈ rest, u.trk_error < 0
      · simp [h2, hneg]
      · simp [h2, hneg, h1]
    · rw [if_neg h1]
      by_cases h2 : t.trk_error < 0
      · simp [h2]
      · rw [if_neg h2, ih e he]
        by_cases hneg : ∃ u ∈ rest, u.trk_error < 0
        · simp [h2, hneg]
        · by_cases hpos : ∃ u ∈ rest, u.trk_error > 0
          · simp [h2, hneg, h1, hpos]
          · by_cases he1 : e = 1
            · simp [h2, hneg, h1, hpos, he1]
            · simp [h2, hneg, h1, hpos, he1]

/-- Claim C2: on an all-terminal histogram (no queued, running, held or
exiting subjobs) and with neither guard flag up, chk_array_doneness stores
the aggregate exit classification (2 for any fatal negative error, else 1
for any positive error, else 0), runs the completion side effects once,
latches TKMFLG_CHK_ARRAY, and a second call returns at the guard without
repeating anything. -/
theorem claim_C2_doneness_latch (parent : ParentJob) (ptbl : Ajtrkhd)
    (hp : parent.ji_ajtrk = some ptbl)
    (hnd : ptbl.tkm_flags.no_delete = false) (hca : ptbl.tkm_flags.chk_array = false)
    (hzero : histGet ptbl JOB_STATE_QUEUED + histGet ptbl JOB_STATE_RUNNING +
      histGet ptbl JOB_STATE_HELD + histGet ptbl JOB_STATE_EXITING = 0) :
    (chk_array_doneness parent).ji_exitstat =
      (if ∃ t ∈ ptbl.tkm_tbl, t.trk_error < 0 then 2
       else if ∃ t ∈ ptbl.tkm_tbl, t.trk_error > 0 then 1 else 0) ∧
    (chk_array_doneness parent).ji_un_type_exec = true ∧
    (chk_array_doneness parent).finalizeCount = parent.finalizeCount + 1 ∧
    ((chk_array_doneness parent).ji_ajtrk.map (fun t => t.tkm_flags.chk_array)) = some true ∧
    chk_array_doneness (chk_array_doneness parent) = chk_array_doneness parent ∧
    (chk_array_doneness (chk_array_doneness parent)).finalizeCount =
      parent.finalizeCount + 1 := by
  have hscan : scanErr 0 ptbl.tkm_tbl =
      (if ∃ t ∈ ptbl.tkm_tbl, t.trk_error < 0 then 2
       else if ∃ t ∈ ptbl.tkm_tbl, t.trk_error > 0 then 1 else 0) := by
    rw [scanErr_char ptbl.tkm_tbl 0 (Or.inl rfl)]
    by_cases hneg : ∃ t ∈ ptbl.tkm_tbl, t.trk_error < 0
    · rw [if_pos hneg, if_pos hneg]
    · rw [if_neg hneg, if_neg hneg]
      by_cases hpos : ∃ t ∈ ptbl.tkm_tbl, t.trk_error > 0
      · rw [if_pos (Or.inl hpos), if_pos hpos]
      · rw [if_neg (by rintro (h | h); exact hpos h; omega), if_neg hpos]
  have h1 : chk_array_doneness parent =
      { parent with
        ji_un_type_exec := true
        ji_exitstat := scanErr 0 ptbl.tkm_tbl
        finalizeCount := parent.finalizeCount + 1
        ji_ajtrk := some { ptbl with
          tkm_flags := { ptbl.tkm_flags with chk_array := true } } } := by
    unfold chk_array_doneness
    rw [hp]
    dsimp only
    rw [if_neg (by rw [hnd, hca]; simp), if_pos hzero]
  have h2 : chk_array_doneness (chk_array_doneness parent) = chk_array_doneness parent := by
    rw [h1]
    conv_lhs => unfold chk_array_doneness
    dsimp only
    rw [if_pos (by simp)]
  rw [h2, h1]
  refine ⟨hscan, rfl, rfl, rfl, rfl, rfl⟩

/-- Witness for claim C2: a finished two-subjob array with no recorded
errors; doneness fires once with aggregate exit 0 and the second call is a
no-op. -/
theorem claim_C2_witness :
    histGet ⟨2, 1, 2, 1, ⟨false, false, false⟩, [0, 0, 0, 0, 0, 0, 2, 0, 0, 0],
        [⟨6, 0, false, 0, -1, false, none⟩, ⟨6, 0, false, 0, -1, false, none⟩]⟩
        JOB_STATE_QUEUED +
      histGet ⟨2, 1, 2, 1, ⟨false, false, false⟩, [0, 0, 0, 0, 0, 0, 2, 0, 0, 0],
        [⟨6, 0, false, 0, -1, false, none⟩, ⟨6, 0, false, 0, -1, false, none⟩]⟩
        JOB_STATE_RUNNING +
      histGet ⟨2, 1, 2, 1, ⟨false, false, false⟩, [0, 0, 0, 0, 0, 0, 2, 0, 0, 0],
        [⟨6, 0, false, 0, -1, false, none⟩, ⟨6, 0, false, 0, -1, false, none⟩]⟩
        JOB_STATE_HELD +
      histGet ⟨2, 1, 2, 1, ⟨false, false, false⟩, [0, 0, 0, 0, 0, 0, 2, 0, 0, 0],
        [⟨6, 0, false, 0, -1, false, none⟩, ⟨6, 0, false, 0, -1, false, none⟩]⟩
        JOB_STATE_EXITING = 0 ∧
    (chk_array_doneness ⟨some ⟨2, 1, 2, 1, ⟨false, false, false⟩,
        [0, 0, 0, 0, 0, 0, 2, 0, 0, 0],
        [⟨6, 0, false, 0, -1, false, none⟩, ⟨6, 0, false, 0, -1, false, none⟩]⟩,
        0, false, true, [], 0, 0⟩).finalizeCount = 0 + 1 ∧
    chk_array_doneness (chk_array_doneness ⟨some ⟨2, 1, 2, 1, ⟨false, false, false⟩,
        [0, 0, 0, 0, 0, 0, 2, 0, 0, 0],
        [⟨6, 0, false, 0, -1, false, none⟩, ⟨6, 0, false, 0, -1, false, none⟩]⟩,
        0, false, true, [], 0, 0⟩) =
      chk_array_doneness ⟨some ⟨2, 1, 2, 1, ⟨false, false, false⟩,
        [0, 0, 0, 0, 0, 0, 2, 0, 0, 0],
        [⟨6, 0, false, 0, -1, false, none⟩, ⟨6, 0, false, 0, -1, false, none⟩]⟩,
        0, false, true, [], 0, 0⟩ := by
  have h := claim_C2_doneness_latch
    ⟨some ⟨2, 1, 2, 1, ⟨false, false, false⟩, [0, 0, 0, 0, 0, 0, 2, 0, 0, 0],
      [⟨6, 0, false, 0, -1, false, none⟩, ⟨6, 0, false, 0, -1, false, none⟩]⟩,
      0, false, true, [], 0, 0⟩
    ⟨2, 1, 2, 1, ⟨false, false, false⟩, [0, 0, 0, 0, 0, 0, 2, 0, 0, 0],
      [⟨6, 0, false, 0, -1, false, none⟩, ⟨6, 0, false, 0, -1, false, none⟩]⟩
    rfl rfl rfl (by decide)
  exact ⟨by decide, h.2.2.1, h.2.2.2.2.1⟩

/-! ## Claim C6: subjob materialization failure paths -/

theorem set_same {α : Type} : ∀ {l : List α} {i : Nat} {a : α},
    l.get? i = some a → l.set i a = l := by
  intro l
  induction l with
  | nil => intro i a h; simp at h
  | cons x t ih =>
    intro i a h
    cases i with
    | zero =>
      have : x = a := by simpa using h
      subst this
      rfl
    | succ i =>
      have : t.get? i = some a := by simpa using h
      rw [List.set_cons_succ, ih this]

theorem getD_of_get? {α : Type} [Inhabited α] {l : List α} {i : Nat} {a : α}
    (h : l.get? i = some a) : l.getD i default = a := by
  rw [List.getD_eq_getElem?_getD, ← List.get?_eq_getElem?, h]
  rfl

theorem getD_set_self_gen {α : Type} [Inhabited α] {l : List α} {i : Nat} {v : α}
    (h : i < l.length) : (l.set i v).getD i default = v := by
  rw [List.getD_eq_getElem?_getD, List.getElem?_set_self h]
  rfl

/-- Linking a subjob reference into a slot and then purging it restores the
table exactly, when the slot was unlinked to begin with. -/
theorem purge_roundtrip {l : List Ajtrk} {i : Nat} {ent : Ajtrk}
    (hget : l.get? i = some ent) (hpn : ent.trk_psubjob = none) :
    (l.set i { l.getD i default with trk_psubjob := some () }).set i
      { ((l.set i { l.getD i default with trk_psubjob := some () }).getD i default) with
        trk_psubjob := none } = l := by
  rw [getD_of_get? hget]
  rw [getD_set_self_gen (get?_lt hget)]
  rw [List.set_set]
  have h2 : ({ { ent with trk_psubjob := some () } with trk_psubjob := none } : Ajtrk) = ent := by
    cases ent
    simp_all
  rw [h2]
  exact set_same hget

/-- Claim C6: create_subjob fails with PBSE_UNKJOBID when the index does
not resolve, with PBSE_BADSTATE when the resolved entry is not queued, and
with PBSE_IVALREQ when the enqueue collaborator fails; on each of these
paths the returned parent -- tracking table included -- is exactly the
input parent: the entry is still queued and no subjob reference is left
linked. -/
theorem claim_C6_create_subjob_failures (parent : ParentJob) (ptbl : Ajtrkhd)
    (idxText : List Char) (enq : Bool)
    (hp : parent.ji_ajtrk = some ptbl) (harr : parent.ji_svrflags_ArrayJob = true) :
    (subjob_index_to_offset (some ptbl) idxText = -1 →
      create_subjob parent (some idxText) enq =
        (parent, Except.error PBSError.PBSE_UNKJOBID)) ∧
    (subjob_index_to_offset (some ptbl) idxText ≠ -1 →
      entStatus ptbl (subjob_index_to_offset (some ptbl) idxText).toNat ≠
        JOB_STATE_QUEUED →
      create_subjob parent (some idxText) enq =
        (parent, Except.error PBSError.PBSE_BADSTATE)) ∧
    (∀ ent : Ajtrk, subjob_index_to_offset (some ptbl) idxText ≠ -1 →
      ptbl.tkm_tbl.get? (subjob_index_to_offset (some ptbl) idxText).toNat = some ent →
      ent.trk_status = JOB_STATE_QUEUED → ent.trk_psubjob = none →
      create_subjob parent (some idxText) false =
        (parent, Except.error PBSError.PBSE_IVALREQ)) := by
  refine ⟨fun hunk => ?_, fun hok hbad => ?_, fun ent hok hget hq hpn => ?_⟩
  · unfold create_subjob
    rw [if_neg (by rw [harr]; simp)]
    dsimp only
    rw [hp]
    rw [if_pos hunk]
  · unfold create_subjob
    rw [if_neg (by rw [harr]; simp)]
    dsimp only
    rw [hp]
    dsimp only
    rw [if_neg hok]
    rw [if_pos hbad]
  · unfold create_subjob
    rw [if_neg (by rw [harr]; simp)]
    dsimp only
    rw [hp]
    dsimp only
    rw [if_neg hok]
    rw [if_neg (not_not_intro (by
      show entStatus ptbl _ = JOB_STATE_QUEUED
      unfold entStatus
      rw [getD_of_get? hget, hq]))]
    rw [if_pos (by simp)]
    rw [purge_roundtrip hget hpn]
    rw [show ({ ptbl with tkm_tbl := ptbl.tkm_tbl } : Ajtrkhd) = ptbl from rfl, ← hp]

/-- Witness for claim C6: a 1-3 array whose offset 0 is already running;
index 9 is unknown, materializing index 1 is a bad-state error, and an
enqueue failure on index 2 leaves the parent untouched. -/
theorem claim_C6_witness :
    create_subjob ⟨some ⟨3, 1, 3, 1, ⟨false, false, false⟩, [0, 2, 0, 0, 1, 0, 0, 0, 0, 0], [⟨4, 0, false, 0, -1, false, none⟩, ⟨1, 0, false, 0, -1, false, none⟩, ⟨1, 0, false, 0, -1, false, none⟩]⟩, 0, false, true, [], 0, 0⟩ (some ['9']) true = (⟨some ⟨3, 1, 3, 1, ⟨false, false, false⟩, [0, 2, 0, 0, 1, 0, 0, 0, 0, 0], [⟨4, 0, false, 0, -1, false, none⟩, ⟨1, 0, false, 0, -1, false, none⟩, ⟨1, 0, false, 0, -1, false, none⟩]⟩, 0, false, true, [], 0, 0⟩, Except.error PBSError.PBSE_UNKJOBID) ∧
    create_subjob ⟨some ⟨3, 1, 3, 1, ⟨false, false, false⟩, [0, 2, 0, 0, 1, 0, 0, 0, 0, 0], [⟨4, 0, false, 0, -1, false, none⟩, ⟨1, 0, false, 0, -1, false, none⟩, ⟨1, 0, false, 0, -1, false, none⟩]⟩, 0, false, true, [], 0, 0⟩ (some ['1']) true = (⟨some ⟨3, 1, 3, 1, ⟨false, false, false⟩, [0, 2, 0, 0, 1, 0, 0, 0, 0, 0], [⟨4, 0, false, 0, -1, false, none⟩, ⟨1, 0, false, 0, -1, false, none⟩, ⟨1, 0, false, 0, -1, false, none⟩]⟩, 0, false, true, [], 0, 0⟩, Except.error PBSError.PBSE_BADSTATE) ∧
    create_subjob ⟨some ⟨3, 1, 3, 1, ⟨false, false, false⟩, [0, 2, 0, 0, 1, 0, 0, 0, 0, 0], [⟨4, 0, false, 0, -1, false, none⟩, ⟨1, 0, false, 0, -1, false, none⟩, ⟨1, 0, false, 0, -1, false, none⟩]⟩, 0, false, true, [], 0, 0⟩ (some ['2']) false = (⟨some ⟨3, 1, 3, 1, ⟨false, false, false⟩, [0, 2, 0, 0, 1, 0, 0, 0, 0, 0], [⟨4, 0, false, 0, -1, false, none⟩, ⟨1, 0, false, 0, -1, false, none⟩, ⟨1, 0, false, 0, -1, false, none⟩]⟩, 0, false, true, [], 0, 0⟩, Except.error PBSError.PBSE_IVALREQ) := by
  have h := claim_C6_create_subjob_failures ⟨some ⟨3, 1, 3, 1, ⟨false, false, false⟩, [0, 2, 0, 0, 1, 0, 0, 0, 0, 0], [⟨4, 0, false, 0, -1, false, none⟩, ⟨1, 0, false, 0, -1, false, none⟩, ⟨1, 0, false, 0, -1, false, none⟩]⟩, 0, false, true, [], 0, 0⟩ ⟨3, 1, 3, 1, ⟨false, false, false⟩, [0, 2, 0, 0, 1, 0, 0, 0, 0, 0], [⟨4, 0, false, 0, -1, false, none⟩, ⟨1, 0, false, 0, -1, false, none⟩, ⟨1, 0, false, 0, -1, false, none⟩]⟩ ['9'] true rfl rfl
  have h2 := claim_C6_create_subjob_failures ⟨some ⟨3, 1, 3, 1, ⟨false, false, false⟩, [0, 2, 0, 0, 1, 0, 0, 0, 0, 0], [⟨4, 0, false, 0, -1, false, none⟩, ⟨1, 0, false, 0, -1, false, none⟩, ⟨1, 0, false, 0, -1, false, none⟩]⟩, 0, false, true, [], 0, 0⟩ ⟨3, 1, 3, 1, ⟨false, false, false⟩, [0, 2, 0, 0, 1, 0, 0, 0, 0, 0], [⟨4, 0, false, 0, -1, false, none⟩, ⟨1, 0, false, 0, -1, false, none⟩, ⟨1, 0, false, 0, -1, false, none⟩]⟩ ['1'] true rfl rfl
  have h3 := claim_C6_create_subjob_failures ⟨some ⟨3, 1, 3, 1, ⟨false, false, false⟩, [0, 2, 0, 0, 1, 0, 0, 0, 0, 0], [⟨4, 0, false, 0, -1, false, none⟩, ⟨1, 0, false, 0, -1, false, none⟩, ⟨1, 0, false, 0, -1, false, none⟩]⟩, 0, false, true, [], 0, 0⟩ ⟨3, 1, 3, 1, ⟨false, false, false⟩, [0, 2, 0, 0, 1, 0, 0, 0, 0, 0], [⟨4, 0, false, 0, -1, false, none⟩, ⟨1, 0, false, 0, -1, false, none⟩, ⟨1, 0, false, 0, -1, false, none⟩]⟩ ['2'] false rfl rfl
  exact ⟨h.1 (by decide), h2.2.1 (by decide) (by decide),
    h3.2.2 ⟨1, 0, false, 0, -1, false, none⟩ (by decide) (by decide) rfl rfl⟩

/-! ## Claim C10: the qmove fix-up -/

/-- set_subjob_tblstate never touches the geometry fields or the table
length. -/
theorem set_tblstate_frame (ptbl : Ajtrkhd) (off : Int) (ns : Nat) :
    (set_subjob_tblstate ptbl off ns).tkm_ct = ptbl.tkm_ct ∧
    (set_subjob_tblstate ptbl off ns).tkm_start = ptbl.tkm_start ∧
    (set_subjob_tblstate ptbl off ns).tkm_end = ptbl.tkm_end ∧
    (set_subjob_tblstate ptbl off ns).tkm_step = ptbl.tkm_step ∧
    (set_subjob_tblstate ptbl off ns).tkm_tbl.length = ptbl.tkm_tbl.length := by
  unfold set_subjob_tblstate
  by_cases h0 : off = -1
  · rw [if_pos h0]
    exact ⟨rfl, rfl, rfl, rfl, rfl⟩
  rw [if_neg h0]
  cases hget : ptbl.tkm_tbl.get? off.toNat with
  | none => exact ⟨rfl, rfl, rfl, rfl, rfl⟩
  | some ent =>
    dsimp only
    by_cases heq : ent.trk_status = ns
    · rw [if_pos heq]
      exact ⟨rfl, rfl, rfl, rfl, rfl⟩
    · rw [if_neg heq]
      exact ⟨rfl, rfl, rfl, rfl, by simp⟩

/-- numindex_to_offset reads only the geometry fields, which
set_subjob_tblstate preserves. -/
theorem numindex_set_frame (ptbl : Ajtrkhd) (off : Int) (ns : Nat) (k : Int) :
    numindex_to_offset (set_subjob_tblstate ptbl off ns) k = numindex_to_offset ptbl k := by
  obtain ⟨h1, h2, h3, h4, h5⟩ := set_tblstate_frame ptbl off ns
  unfold numindex_to_offset SJ_TBLIDX_2_IDX
  rw [h2, h3, h4]

/-- The entry state after one set_subjob_tblstate call. -/
theorem entStatus_set (ptbl : Ajtrkhd) (i : Int) (ns : Nat) (o : Nat)
    (hi : i = -1 ∨ 0 ≤ i) :
    entStatus (set_subjob_tblstate ptbl i ns) o =
      if i ≠ -1 ∧ i.toNat = o ∧ o < ptbl.tkm_tbl.length then ns else entStatus ptbl o := by
  unfold set_subjob_tblstate
  by_cases h0 : i = -1
  · rw [if_pos h0, if_neg (by tauto)]
  rw [if_neg h0]
  cases hget : ptbl.tkm_tbl.get? i.toNat with
  | none =>
    have hlen : ptbl.tkm_tbl.length ≤ i.toNat := by
      by_contra hc
      push_neg at hc
      rw [List.get?_eq_getElem?] at hget
      rw [List.getElem?_eq_none_iff] at hget
      omega
    rw [if_neg (by rintro ⟨ha, rfl, hc⟩; omega)]
  | some ent =>
    have hlt : i.toNat < ptbl.tkm_tbl.length := get?_lt hget
    dsimp only
    by_cases heq : ent.trk_status = ns
    · rw [if_pos heq]
      by_cases ho : i.toNat = o
      · subst ho
        rw [if_pos ⟨h0, rfl, hlt⟩]
        unfold entStatus
        rw [getD_of_get? hget, heq]
      · rw [if_neg (by tauto)]
    · rw [if_neg heq]
      unfold entStatus
      dsimp only
      by_cases ho : i.toNat = o
      · subst ho
        rw [if_pos ⟨h0, rfl, hlt⟩]
        rw [getD_set_self_gen hlt]
      · rw [if_neg (by tauto)]
        rw [List.getD_eq_getElem?_getD, List.getElem?_set_ne ho, ← List.getD_eq_getElem?_getD]

/-- Any fold of set_subjob_tblstate calls (offsets computed from the evolving
table) preserves the geometry fields and the table length. -/
theorem foldl_set_frame {α : Type} (f : Ajtrkhd → α → Int) (ns : Nat) :
    ∀ (l : List α) (ptbl : Ajtrkhd),
    (l.foldl (fun t a => set_subjob_tblstate t (f t a) ns) ptbl).tkm_ct = ptbl.tkm_ct ∧
    (l.foldl (fun t a => set_subjob_tblstate t (f t a) ns) ptbl).tkm_start = ptbl.tkm_start ∧
    (l.foldl (fun t a => set_subjob_tblstate t (f t a) ns) ptbl).tkm_end = ptbl.tkm_end ∧
    (l.foldl (fun t a => set_subjob_tblstate t (f t a) ns) ptbl).tkm_step = ptbl.tkm_step ∧
    (l.foldl (fun t a => set_subjob_tblstate t (f t a) ns) ptbl).tkm_tbl.length =
      ptbl.tkm_tbl.length := by
  intro l
  induction l with
  | nil => intro ptbl; exact ⟨rfl, rfl, rfl, rfl, rfl⟩
  | cons c rest ih =>
    intro ptbl
    rw [List.foldl_cons]
    obtain ⟨h1, h2, h3, h4, h5⟩ := ih (set_subjob_tblstate ptbl (f ptbl c) ns)
    obtain ⟨g1, g2, g3, g4, g5⟩ := set_tblstate_frame ptbl (f ptbl c) ns
    exact ⟨h1.trans g1, h2.trans g2, h3.trans g3, h4.trans g4, h5.trans g5⟩

/-- Any fold of set_subjob_tblstate calls at a genuine job state preserves
the histogram invariant and well-formedness. -/
theorem foldl_set_pres {α : Type} (f : Ajtrkhd → α → Int) (ns : Nat)
    (hns : ns < PBS_NUMJOBSTATE) :
    ∀ (l : List α) (ptbl : Ajtrkhd), histInv ptbl → histWF ptbl →
    histInv (l.foldl (fun t a => set_subjob_tblstate t (f t a) ns) ptbl) ∧
    histWF (l.foldl (fun t a => set_subjob_tblstate t (f t a) ns) ptbl) := by
  intro l
  induction l with
  | nil => intro ptbl hinv hwf; exact ⟨hinv, hwf⟩
  | cons c rest ih =>
    intro ptbl hinv hwf
    rw [List.foldl_cons]
    obtain ⟨hinv2, hwf2⟩ := set_tblstate_pres (f ptbl c) hns hinv hwf
    exact ih (set_subjob_tblstate ptbl (f ptbl c) ns) hinv2 hwf2

/-- expireAll preserves the geometry fields and the table length. -/
theorem expireAll_frame (ptbl : Ajtrkhd) :
    (expireAll ptbl).tkm_ct = ptbl.tkm_ct ∧
    (expireAll ptbl).tkm_start = ptbl.tkm_start ∧
    (expireAll ptbl).tkm_end = ptbl.tkm_end ∧
    (expireAll ptbl).tkm_step = ptbl.tkm_step ∧
    (expireAll ptbl).tkm_tbl.length = ptbl.tkm_tbl.length := by
  unfold expireAll
  exact foldl_set_frame (fun (_ : Ajtrkhd) (i : Nat) => (i : Int)) JOB_STATE_EXPIRED
    (List.range ptbl.tkm_ct) ptbl

/-- The expire loop keeps the histogram invariant. -/
theorem expireAll_pres (ptbl : Ajtrkhd) (hinv : histInv ptbl) (hwf : histWF ptbl) :
    histInv (expireAll ptbl) ∧ histWF (expireAll ptbl) := by
  unfold expireAll
  exact foldl_set_pres (fun (_ : Ajtrkhd) (i : Nat) => (i : Int)) JOB_STATE_EXPIRED (by decide)
    (List.range ptbl.tkm_ct) ptbl hinv hwf

/-- Entry state after a fold of set_subjob_tblstate calls at Nat offsets:
the fixed state if the entry's offset is in the list, the old state
otherwise. -/
theorem foldl_setNat_status (ns : Nat) :
    ∀ (l : List Nat) (ptbl : Ajtrkhd) (o : Nat),
    entStatus (l.foldl (fun t (i : Nat) => set_subjob_tblstate t (i : Int) ns) ptbl) o =
      if o ∈ l ∧ o < ptbl.tkm_tbl.length then ns else entStatus ptbl o := by
  intro l
  induction l with
  | nil =>
    intro ptbl o
    rw [List.foldl_nil, if_neg (by simp)]
  | cons c rest ih =>
    intro ptbl o
    rw [List.foldl_cons,
      ih (set_subjob_tblstate ptbl (c : Int) ns) o,
      (set_tblstate_frame ptbl (c : Int) ns).2.2.2.2,
      entStatus_set ptbl (c : Int) ns o (Or.inr (Int.natCast_nonneg c))]
    by_cases hr : o ∈ rest ∧ o < ptbl.tkm_tbl.length
    · rw [if_pos hr, if_pos ⟨List.mem_cons_of_mem c hr.1, hr.2⟩]
    · rw [if_neg hr]
      by_cases hcm : c = o ∧ o < ptbl.tkm_tbl.length
      · rw [if_pos (by omega), if_pos ⟨by rw [hcm.1]; exact List.mem_cons_self o rest, hcm.2⟩]
      · rw [if_neg (by omega), if_neg ?g]
        case g =>
          rintro ⟨hmem, hlt⟩
          rcases List.mem_cons.mp hmem with rfl | h2
          · exact hcm ⟨rfl, hlt⟩
          · exact hr ⟨h2, hlt⟩

/-- After the expire loop every entry with offset below the count is
Expired. -/
theorem expireAll_status (ptbl : Ajtrkhd) (o : Nat) :
    entStatus (expireAll ptbl) o =
      if o < ptbl.tkm_ct ∧ o < ptbl.tkm_tbl.length then JOB_STATE_EXPIRED
      else entStatus ptbl o := by
  unfold expireAll
  rw [foldl_setNat_status JOB_STATE_EXPIRED (List.range ptbl.tkm_ct) ptbl o]
  by_cases h : o < ptbl.tkm_ct ∧ o < ptbl.tkm_tbl.length
  · rw [if_pos ⟨List.mem_range.mpr h.1, h.2⟩, if_pos h]
  · rw [if_neg (by rw [List.mem_range]; exact h), if_neg h]

/-- numindex_to_offset reads only the three geometry fields. -/
theorem numindex_frame_congr {t1 t2 : Ajtrkhd} (h1 : t1.tkm_start = t2.tkm_start)
    (h2 : t1.tkm_end = t2.tkm_end) (h3 : t1.tkm_step = t2.tkm_step) (k : Int) :
    numindex_to_offset t1 k = numindex_to_offset t2 k := by
  unfold numindex_to_offset SJ_TBLIDX_2_IDX
  rw [h1, h2, h3]

/-- With a positive step the mapper returns -1 or a non-negative offset. -/
theorem numindex_nonneg_or (ptbl : Ajtrkhd) (hstep : 1 ≤ ptbl.tkm_step) (k : Int) :
    numindex_to_offset ptbl k = -1 ∨ 0 ≤ numindex_to_offset ptbl k := by
  unfold numindex_to_offset
  by_cases h : (k - ptbl.tkm_start) % ptbl.tkm_step ≠ 0 ∨ ptbl.tkm_start > k ∨
      k > ptbl.tkm_end
  · left
    rw [if_pos h]
  · rw [if_neg h]
    push_neg at h
    dsimp only
    by_cases h2 : SJ_TBLIDX_2_IDX ptbl ((k - ptbl.tkm_start) / ptbl.tkm_step) ≠ k
    · left
      rw [if_pos h2]
    · right
      rw [if_neg h2]
      exact Int.ediv_nonneg (by omega) (by omega)

/-- The external index of an in-table offset maps back to that offset. -/
theorem numindex_roundtrip (ptbl : Ajtrkhd) (hstep : 1 ≤ ptbl.tkm_step) (o : Nat)
    (hend : SJ_TBLIDX_2_IDX ptbl (o : Int) ≤ ptbl.tkm_end) :
    numindex_to_offset ptbl (SJ_TBLIDX_2_IDX ptbl (o : Int)) = (o : Int) := by
  have hsj : SJ_TBLIDX_2_IDX ptbl (o : Int) =
      ptbl.tkm_start + (o : Int) * ptbl.tkm_step := rfl
  have hsub : SJ_TBLIDX_2_IDX ptbl (o : Int) - ptbl.tkm_start =
      (o : Int) * ptbl.tkm_step := by rw [hsj]; ring
  have hmod : (SJ_TBLIDX_2_IDX ptbl (o : Int) - ptbl.tkm_start) % ptbl.tkm_step = 0 := by
    rw [hsub]
    exact Int.emod_eq_zero_of_dvd (dvd_mul_left ptbl.tkm_step (o : Int))
  have hmul : 0 ≤ (o : Int) * ptbl.tkm_step :=
    mul_nonneg (Int.natCast_nonneg o) (by omega)
  have hdiv : (SJ_TBLIDX_2_IDX ptbl (o : Int) - ptbl.tkm_start) / ptbl.tkm_step =
      (o : Int) := by
    rw [hsub]
    exact Int.mul_ediv_cancel (o : Int) (by omega)
  unfold numindex_to_offset
  rw [if_neg (by push_neg; exact ⟨hmod, by rw [hsj]; omega, hend⟩)]
  dsimp only
  rw [hdiv, if_neg (not_not_intro rfl)]

/-- If the mapper sends an index to a non-negative offset, that index is
the offset's external index. -/
theorem numindex_inv (ptbl : Ajtrkhd) {k : Int} {o : Nat}
    (h : numindex_to_offset ptbl k = (o : Int)) :
    SJ_TBLIDX_2_IDX ptbl (o : Int) = k := by
  unfold numindex_to_offset at h
  by_cases hc : (k - ptbl.tkm_start) % ptbl.tkm_step ≠ 0 ∨ ptbl.tkm_start > k ∨
      k > ptbl.tkm_end
  · rw [if_pos hc] at h
    omega
  · rw [if_neg hc] at h
    dsimp only at h
    by_cases h2 : SJ_TBLIDX_2_IDX ptbl ((k - ptbl.tkm_start) / ptbl.tkm_step) ≠ k
    · rw [if_pos h2] at h
      omega
    · rw [if_neg h2] at h
      push_neg at h2
      rw [h] at h2
      exact h2

/-- requeueSeg preserves the geometry fields and the table length. -/
theorem requeueSeg_frame (ptbl : Ajtrkhd) (idxs : List Int) :
    (requeueSeg ptbl idxs).tkm_ct = ptbl.tkm_ct ∧
    (requeueSeg ptbl idxs).tkm_start = ptbl.tkm_start ∧
    (requeueSeg ptbl idxs).tkm_end = ptbl.tkm_end ∧
    (requeueSeg ptbl idxs).tkm_step = ptbl.tkm_step ∧
    (requeueSeg ptbl idxs).tkm_tbl.length = ptbl.tkm_tbl.length := by
  unfold requeueSeg
  exact foldl_set_frame (fun t k => numindex_to_offset t k) JOB_STATE_QUEUED idxs ptbl

/-- The requeue loop keeps the histogram invariant. -/
theorem requeueSeg_pres (ptbl : Ajtrkhd) (idxs : List Int) (hinv : histInv ptbl)
    (hwf : histWF ptbl) : histInv (requeueSeg ptbl idxs) ∧ histWF (requeueSeg ptbl idxs) := by
  unfold requeueSeg
  exact foldl_set_pres (fun t k => numindex_to_offset t k) JOB_STATE_QUEUED (by decide)
    idxs ptbl hinv hwf

/-- Entry state after one requeue pass: Queued exactly when some listed
index maps to the entry's offset; unmappable indices are silent no-ops. -/
theorem requeueSeg_status : ∀ (idxs : List Int) (ptbl : Ajtrkhd) (o : Nat),
    1 ≤ ptbl.tkm_step →
    entStatus (requeueSeg ptbl idxs) o =
      if ∃ k ∈ idxs, numindex_to_offset ptbl k = (o : Int) ∧ o < ptbl.tkm_tbl.length
      then JOB_STATE_QUEUED else entStatus ptbl o := by
  intro idxs
  induction idxs with
  | nil =>
    intro ptbl o _
    rw [if_neg (by simp)]
    rfl
  | cons c rest ih =>
    intro ptbl o hstep
    have h1 : requeueSeg ptbl (c :: rest) =
        requeueSeg (set_subjob_tblstate ptbl (numindex_to_offset ptbl c)
          JOB_STATE_QUEUED) rest := rfl
    have hfun : numindex_to_offset (set_subjob_tblstate ptbl
        (numindex_to_offset ptbl c) JOB_STATE_QUEUED) = numindex_to_offset ptbl :=
      funext (numindex_set_frame ptbl (numindex_to_offset ptbl c) JOB_STATE_QUEUED)
    have hstep2 : 1 ≤ (set_subjob_tblstate ptbl (numindex_to_offset ptbl c)
        JOB_STATE_QUEUED).tkm_step := by
      rw [(set_tblstate_frame ptbl (numindex_to_offset ptbl c) JOB_STATE_QUEUED).2.2.2.1]
      exact hstep
    rw [h1, ih _ o hstep2, hfun,
      (set_tblstate_frame ptbl (numindex_to_offset ptbl c) JOB_STATE_QUEUED).2.2.2.2,
      entStatus_set ptbl (numindex_to_offset ptbl c) JOB_STATE_QUEUED o
        (numindex_nonneg_or ptbl hstep c)]
    by_cases hr : ∃ k ∈ rest, numindex_to_offset ptbl k = (o : Int) ∧
        o < ptbl.tkm_tbl.length
    · rw [if_pos hr]
      obtain ⟨k, hk, hp⟩ := hr
      rw [if_pos ⟨k, List.mem_cons_of_mem c hk, hp⟩]
    · rw [if_neg hr]
      by_cases hcm : numindex_to_offset ptbl c ≠ -1 ∧
          (numindex_to_offset ptbl c).toNat = o ∧ o < ptbl.tkm_tbl.length
      · rw [if_pos hcm]
        rcases numindex_nonneg_or ptbl hstep c with h0 | h0
        · exact absurd h0 hcm.1
        · rw [if_pos ⟨c, List.mem_cons_self c rest, by omega, hcm.2.2⟩]
      · rw [if_neg hcm, if_neg ?g]
        case g =>
          rintro ⟨k, hk, heq, hlt⟩
          rcases List.mem_cons.mp hk with rfl | h2
          · exact hcm ⟨by omega, by omega, hlt⟩
          · exact hr ⟨k, h2, heq, hlt⟩

/-- The parse-and-requeue loop preserves the geometry fields and the table
length. -/
theorem fixupGo_frame : ∀ (fuel : Nat) (s : List Char) (ptbl : Ajtrkhd),
    (fixupGo fuel ptbl s).tkm_ct = ptbl.tkm_ct ∧
    (fixupGo fuel ptbl s).tkm_start = ptbl.tkm_start ∧
    (fixupGo fuel ptbl s).tkm_end = ptbl.tkm_end ∧
    (fixupGo fuel ptbl s).tkm_step = ptbl.tkm_step ∧
    (fixupGo fuel ptbl s).tkm_tbl.length = ptbl.tkm_tbl.length := by
  intro fuel
  induction fuel with
  | zero => intro s ptbl; exact ⟨rfl, rfl, rfl, rfl, rfl⟩
  | succ f ih =>
    intro s ptbl
    unfold fixupGo
    cases hp : parse_subjob_index s with
    | ok ep a b st c =>
      dsimp only
      obtain ⟨h1, h2, h3, h4, h5⟩ := ih ep (requeueSeg ptbl (segIndices a b st))
      obtain ⟨g1, g2, g3, g4, g5⟩ := requeueSeg_frame ptbl (segIndices a b st)
      exact ⟨h1.trans g1, h2.trans g2, h3.trans g3, h4.trans g4, h5.trans g5⟩
    | done ep => exact ⟨rfl, rfl, rfl, rfl, rfl⟩
    | err => exact ⟨rfl, rfl, rfl, rfl, rfl⟩

/-- The parse-and-requeue loop keeps the histogram invariant. -/
theorem fixupGo_pres : ∀ (fuel : Nat) (s : List Char) (ptbl : Ajtrkhd),
    histInv ptbl → histWF ptbl →
    histInv (fixupGo fuel ptbl s) ∧ histWF (fixupGo fuel ptbl s) := by
  intro fuel
  induction fuel with
  | zero => intro s ptbl hinv hwf; exact ⟨hinv, hwf⟩
  | succ f ih =>
    intro s ptbl hinv hwf
    unfold fixupGo
    cases hp : parse_subjob_index s with
    | ok ep a b st c =>
      dsimp only
      obtain ⟨hinv2, hwf2⟩ := requeueSeg_pres ptbl (segIndices a b st) hinv hwf
      exact ih ep (requeueSeg ptbl (segIndices a b st)) hinv2 hwf2
    | done ep => exact ⟨hinv, hwf⟩
    | err => exact ⟨hinv, hwf⟩

/-- Entry state after the whole parse-and-requeue loop: Queued exactly when
some index of the expanded remaining text maps to the entry's offset. -/
theorem fixupGo_status : ∀ (fuel : Nat) (s : List Char) (ptbl : Ajtrkhd) (o : Nat),
    s.length < fuel → 1 ≤ ptbl.tkm_step →
    entStatus (fixupGo fuel ptbl s) o =
      if ∃ k ∈ expandText s, numindex_to_offset ptbl k = (o : Int) ∧
          o < ptbl.tkm_tbl.length
      then JOB_STATE_QUEUED else entStatus ptbl o := by
  intro fuel
  induction fuel with
  | zero => intro s ptbl o hf; omega
  | succ f ih =>
    intro s ptbl o hf hstep
    unfold fixupGo
    cases hp : parse_subjob_index s with
    | ok ep a b st c =>
      dsimp only
      have hlt := (parse_ok_inv hp).1
      have hfr := requeueSeg_frame ptbl (segIndices a b st)
      have hfun : numindex_to_offset (requeueSeg ptbl (segIndices a b st)) =
          numindex_to_offset ptbl :=
        funext (numindex_frame_congr hfr.2.1 hfr.2.2.1 hfr.2.2.2.1)
      rw [ih ep (requeueSeg ptbl (segIndices a b st)) o (by omega)
          (by rw [hfr.2.2.2.1]; exact hstep),
        hfun, hfr.2.2.2.2,
        requeueSeg_status (segIndices a b st) ptbl o hstep,
        expandText_ok hp]
      by_cases hr : ∃ k ∈ expandText ep, numindex_to_offset ptbl k = (o : Int) ∧
          o < ptbl.tkm_tbl.length
      · rw [if_pos hr]
        obtain ⟨k, hk, hpk⟩ := hr
        rw [if_pos ⟨k, List.mem_append_right _ hk, hpk⟩]
      · rw [if_neg hr]
        by_cases hs : ∃ k ∈ segIndices a b st, numindex_to_offset ptbl k = (o : Int) ∧
            o < ptbl.tkm_tbl.length
        · rw [if_pos hs]
          obtain ⟨k, hk, hpk⟩ := hs
          rw [if_pos ⟨k, List.mem_append_left _ hk, hpk⟩]
        · rw [if_neg hs, if_neg ?g]
          case g =>
            rintro ⟨k, hk, hpk⟩
            rcases List.mem_append.mp hk with h2 | h2
            · exact hs ⟨k, h2, hpk⟩
            · exact hr ⟨k, h2, hpk⟩
    | done ep =>
      rw [expandText_done hp, if_neg (by simp)]
    | err =>
      rw [expandText_err hp, if_neg (by simp)]

/-- Claim C10: on the qmove fix-up path (ArrayJob flag set, tracking table
present, not the fresh-qsub NEW case) fixup_arrayindicies succeeds and
replaces the table with one where, for every table offset, the entry is
Queued exactly when its external index appears in the parsed remaining
text (indices that fail the offset mapping are silently skipped) and is
Expired otherwise; and the histogram invariant is preserved because every
state change routes through set_subjob_tblstate. -/
theorem claim_C10_fixup_requeue (parent : ParentJob) (ptbl : Ajtrkhd)
    (str : List Char) (svrflags_here : Bool) (mode : AtrAction)
    (hflag : parent.ji_svrflags_ArrayJob = true)
    (htbl : parent.ji_ajtrk = some ptbl)
    (hmode : ¬ (svrflags_here = true ∧ mode = AtrAction.NEW))
    (hstep : 1 ≤ ptbl.tkm_step)
    (hlen : ptbl.tkm_tbl.length = ptbl.tkm_ct)
    (hend : ∀ o : Nat, o < ptbl.tkm_ct → SJ_TBLIDX_2_IDX ptbl (o : Int) ≤ ptbl.tkm_end)
    (hinv : histInv ptbl) (hwf : histWF ptbl) :
    fixup_arrayindicies parent svrflags_here mode str =
      Except.ok { parent with
        ji_ajtrk := some (fixupGo (str.length + 1) (expireAll ptbl) str) } ∧
    (∀ o : Nat, o < ptbl.tkm_ct →
      entStatus (fixupGo (str.length + 1) (expireAll ptbl) str) o =
        if SJ_TBLIDX_2_IDX ptbl (o : Int) ∈ expandText str then JOB_STATE_QUEUED
        else JOB_STATE_EXPIRED) ∧
    histInv (fixupGo (str.length + 1) (expireAll ptbl) str) ∧
    histWF (fixupGo (str.length + 1) (expireAll ptbl) str) := by
  have hfr := expireAll_frame ptbl
  refine ⟨?_, ?_, ?_⟩
  · unfold fixup_arrayindicies
    rw [if_neg (not_not_intro hflag), htbl]
    dsimp only
    rw [if_neg hmode]
  · intro o ho
    have hfun : numindex_to_offset (expireAll ptbl) = numindex_to_offset ptbl :=
      funext (numindex_frame_congr hfr.2.1 hfr.2.2.1 hfr.2.2.2.1)
    have hexp : entStatus (expireAll ptbl) o = JOB_STATE_EXPIRED := by
      rw [expireAll_status ptbl o, if_pos ⟨ho, by omega⟩]
    rw [fixupGo_status (str.length + 1) str (expireAll ptbl) o (by omega)
        (by rw [hfr.2.2.2.1]; exact hstep),
      hfun, hfr.2.2.2.2, hexp]
    by_cases hm : SJ_TBLIDX_2_IDX ptbl (o : Int) ∈ expandText str
    · have hex : ∃ k ∈ expandText str, numindex_to_offset ptbl k = (o : Int) ∧
          o < ptbl.tkm_tbl.length :=
        ⟨SJ_TBLIDX_2_IDX ptbl (o : Int), hm,
          numindex_roundtrip ptbl hstep o (hend o ho), by omega⟩
      rw [if_pos hex, if_pos hm]
    · have hnex : ¬ ∃ k ∈ expandText str, numindex_to_offset ptbl k = (o : Int) ∧
          o < ptbl.tkm_tbl.length := by
        rintro ⟨k, hk, heq, _⟩
        exact hm (numindex_inv ptbl heq ▸ hk)
      rw [if_neg hnex, if_neg hm]
  · obtain ⟨hinv2, hwf2⟩ := expireAll_pres ptbl hinv hwf
    exact (fixupGo_pres (str.length + 1) str (expireAll ptbl) hinv2 hwf2)

/-- Witness for claim C10: the 1-7:2 table (indices 1,3,5,7, all Queued)
fixed up against remaining text "3,7": offsets 1 and 3 end Queued, offsets
0 and 2 end Expired, and the histogram invariant survives. -/
theorem claim_C10_witness :
    ((⟨some ⟨4, 1, 7, 2, ⟨false, false, false⟩, [0, 4, 0, 0, 0, 0, 0, 0, 0, 0], [freshEntry JOB_STATE_QUEUED, freshEntry JOB_STATE_QUEUED, freshEntry JOB_STATE_QUEUED, freshEntry JOB_STATE_QUEUED]⟩, 0, false, true, [], 0, 0⟩ : ParentJob).ji_svrflags_ArrayJob = true) ∧
    (1 : Int) ≤ (⟨4, 1, 7, 2, ⟨false, false, false⟩, [0, 4, 0, 0, 0, 0, 0, 0, 0, 0], [freshEntry JOB_STATE_QUEUED, freshEntry JOB_STATE_QUEUED, freshEntry JOB_STATE_QUEUED, freshEntry JOB_STATE_QUEUED]⟩ : Ajtrkhd).tkm_step ∧
    histInv (⟨4, 1, 7, 2, ⟨false, false, false⟩, [0, 4, 0, 0, 0, 0, 0, 0, 0, 0], [freshEntry JOB_STATE_QUEUED, freshEntry JOB_STATE_QUEUED, freshEntry JOB_STATE_QUEUED, freshEntry JOB_STATE_QUEUED]⟩ : Ajtrkhd) ∧ histWF (⟨4, 1, 7, 2, ⟨false, false, false⟩, [0, 4, 0, 0, 0, 0, 0, 0, 0, 0], [freshEntry JOB_STATE_QUEUED, freshEntry JOB_STATE_QUEUED, freshEntry JOB_STATE_QUEUED, freshEntry JOB_STATE_QUEUED]⟩ : Ajtrkhd) ∧
    (fixup_arrayindicies (⟨some ⟨4, 1, 7, 2, ⟨false, false, false⟩, [0, 4, 0, 0, 0, 0, 0, 0, 0, 0], [freshEntry JOB_STATE_QUEUED, freshEntry JOB_STATE_QUEUED, freshEntry JOB_STATE_QUEUED, freshEntry JOB_STATE_QUEUED]⟩, 0, false, true, [], 0, 0⟩ : ParentJob) false AtrAction.RECOV ['3', ',', '7'] =
      Except.ok { (⟨some ⟨4, 1, 7, 2, ⟨false, false, false⟩, [0, 4, 0, 0, 0, 0, 0, 0, 0, 0], [freshEntry JOB_STATE_QUEUED, freshEntry JOB_STATE_QUEUED, freshEntry JOB_STATE_QUEUED, freshEntry JOB_STATE_QUEUED]⟩, 0, false, true, [], 0, 0⟩ : ParentJob) with
        ji_ajtrk := some (fixupGo ((['3', ',', '7'] : List Char).length + 1)
          (expireAll (⟨4, 1, 7, 2, ⟨false, false, false⟩, [0, 4, 0, 0, 0, 0, 0, 0, 0, 0], [freshEntry JOB_STATE_QUEUED, freshEntry JOB_STATE_QUEUED, freshEntry JOB_STATE_QUEUED, freshEntry JOB_STATE_QUEUED]⟩ : Ajtrkhd)) ['3', ',', '7']) } ∧
     (∀ o : Nat, o < (⟨4, 1, 7, 2, ⟨false, false, false⟩, [0, 4, 0, 0, 0, 0, 0, 0, 0, 0], [freshEntry JOB_STATE_QUEUED, freshEntry JOB_STATE_QUEUED, freshEntry JOB_STATE_QUEUED, freshEntry JOB_STATE_QUEUED]⟩ : Ajtrkhd).tkm_ct →
       entStatus (fixupGo ((['3', ',', '7'] : List Char).length + 1)
           (expireAll (⟨4, 1, 7, 2, ⟨false, false, false⟩, [0, 4, 0, 0, 0, 0, 0, 0, 0, 0], [freshEntry JOB_STATE_QUEUED, freshEntry JOB_STATE_QUEUED, freshEntry JOB_STATE_QUEUED, freshEntry JOB_STATE_QUEUED]⟩ : Ajtrkhd)) ['3', ',', '7']) o =
         if SJ_TBLIDX_2_IDX (⟨4, 1, 7, 2, ⟨false, false, false⟩, [0, 4, 0, 0, 0, 0, 0, 0, 0, 0], [freshEntry JOB_STATE_QUEUED, freshEntry JOB_STATE_QUEUED, freshEntry JOB_STATE_QUEUED, freshEntry JOB_STATE_QUEUED]⟩ : Ajtrkhd) (o : Int) ∈ expandText ['3', ',', '7']
         then JOB_STATE_QUEUED else JOB_STATE_EXPIRED) ∧
     histInv (fixupGo ((['3', ',', '7'] : List Char).length + 1)
       (expireAll (⟨4, 1, 7, 2, ⟨false, false, false⟩, [0, 4, 0, 0, 0, 0, 0, 0, 0, 0], [freshEntry JOB_STATE_QUEUED, freshEntry JOB_STATE_QUEUED, freshEntry JOB_STATE_QUEUED, freshEntry JOB_STATE_QUEUED]⟩ : Ajtrkhd)) ['3', ',', '7']) ∧
     histWF (fixupGo ((['3', ',', '7'] : List Char).length + 1)
       (expireAll (⟨4, 1, 7, 2, ⟨false, false, false⟩, [0, 4, 0, 0, 0, 0, 0, 0, 0, 0], [freshEntry JOB_STATE_QUEUED, freshEntry JOB_STATE_QUEUED, freshEntry JOB_STATE_QUEUED, freshEntry JOB_STATE_QUEUED]⟩ : Ajtrkhd)) ['3', ',', '7'])) :=
  ⟨rfl, by decide, by decide, by decide,
    claim_C10_fixup_requeue ⟨some ⟨4, 1, 7, 2, ⟨false, false, false⟩, [0, 4, 0, 0, 0, 0, 0, 0, 0, 0], [freshEntry JOB_STATE_QUEUED, freshEntry JOB_STATE_QUEUED, freshEntry JOB_STATE_QUEUED, freshEntry JOB_STATE_QUEUED]⟩, 0, false, true, [], 0, 0⟩ ⟨4, 1, 7, 2, ⟨false, false, false⟩, [0, 4, 0, 0, 0, 0, 0, 0, 0, 0], [freshEntry JOB_STATE_QUEUED, freshEntry JOB_STATE_QUEUED, freshEntry JOB_STATE_QUEUED, freshEntry JOB_STATE_QUEUED]⟩
      ['3', ',', '7'] false AtrAction.RECOV rfl rfl (by decide) (by decide)
      (by decide) (by decide) (by decide) (by decide)⟩
